import Mathlib

/-!
Verification of the hwlocality core (bitmap index arithmetic, topology
queries, topology editor) against its natural-language specification.

Each section embeds the relevant Rust source functions as executable Lean
definitions and proves or refutes the specification claims about them.
-/

namespace Hwloc

/-!
### BitmapIndex (src/bitmaps/indices.rs)

Rust's `BitmapIndex` is a newtype around `c_uint`.  On every platform
supported by the crate, `c_uint` is a 32-bit unsigned integer, so the raw
stored value is modeled as a natural number; `u32` arithmetic is modeled with
explicit reduction modulo `2 ^ 32`.  The valid range of an index is
`[0, maxVal]` with `maxVal = 2 ^ 31 - 1` (`c_int::MAX as c_uint`), and
`EFFECTIVE_BITS = c_uint::BITS - 1 = 31`.
-/

/-- Bit width of the underlying `c_uint` storage. -/
def uintBits : Nat := 32

/-- Modulus of `c_uint` (`u32`) arithmetic. -/
def uintMod : Nat := 2 ^ uintBits

/-- `BitmapIndex::EFFECTIVE_BITS = c_uint::BITS - 1`. -/
def effectiveBits : Nat := uintBits - 1

/-- `BitmapIndex::MAX.0 = c_int::MAX as c_uint = 2 ^ 31 - 1`. -/
def maxVal : Nat := 2 ^ effectiveBits - 1

/-- `BitmapIndex::const_try_from_c_uint`: accept a raw `c_uint` value iff it
is at most `MAX.0`. -/
def const_try_from_c_uint (x : Nat) : Option Nat :=
  if x ≤ maxVal then some x else none

/-- `BitmapIndex::const_sat_from_c_uint`: clamp a raw `c_uint` value to
`MAX.0`. -/
def const_sat_from_c_uint (x : Nat) : Nat :=
  if x ≤ maxVal then x else maxVal

/-- `u32::checked_add` on raw stored values. -/
def u32_checked_add (a b : Nat) : Option Nat :=
  if a + b < uintMod then some (a + b) else none

/-- `u32::checked_mul` on raw stored values. -/
def u32_checked_mul (a b : Nat) : Option Nat :=
  if a * b < uintMod then some (a * b) else none

/-- `u32::checked_pow` on raw stored values. -/
def u32_checked_pow (a e : Nat) : Option Nat :=
  if a ^ e < uintMod then some (a ^ e) else none

/-- `BitmapIndex::checked_add`: `u32` checked addition followed by the
`[0, MAX]` range check. -/
def checked_add (a b : Nat) : Option Nat :=
  match u32_checked_add a b with
  | none => none
  | some inner => const_try_from_c_uint inner

/-- `BitmapIndex::checked_sub` (`u32::checked_sub`, no further range check
needed since the difference cannot exceed the minuend). -/
def checked_sub (a b : Nat) : Option Nat :=
  if b ≤ a then some (a - b) else none

/-- `BitmapIndex::checked_mul`. -/
def checked_mul (a b : Nat) : Option Nat :=
  match u32_checked_mul a b with
  | none => none
  | some inner => const_try_from_c_uint inner

/-- `BitmapIndex::checked_div`: `None` exactly when the divisor is zero. -/
def checked_div (a b : Nat) : Option Nat :=
  if b = 0 then none else some (a / b)

/-- `BitmapIndex::checked_rem`: `None` exactly when the divisor is zero. -/
def checked_rem (a b : Nat) : Option Nat :=
  if b = 0 then none else some (a % b)

/-- `BitmapIndex::checked_neg`: succeeds only at zero. -/
def checked_neg (a : Nat) : Option Nat :=
  if a = 0 then some 0 else none

/-- `BitmapIndex::checked_shl`: `(self.0 << rhs) & MAX.0` when
`rhs < EFFECTIVE_BITS`, `None` otherwise.  The `u32` shift keeps the result
modulo `2 ^ 32` before the mask. -/
def checked_shl (a s : Nat) : Option Nat :=
  if s < effectiveBits then some (((a <<< s) % uintMod) &&& maxVal) else none

/-- `BitmapIndex::checked_shr`: `self.0 >> rhs` when `rhs < EFFECTIVE_BITS`,
`None` otherwise. -/
def checked_shr (a s : Nat) : Option Nat :=
  if s < effectiveBits then some (a >>> s) else none

/-- `BitmapIndex::checked_pow`. -/
def checked_pow (a e : Nat) : Option Nat :=
  match u32_checked_pow a e with
  | none => none
  | some inner => const_try_from_c_uint inner

/-- `BitmapIndex::saturating_add`: `u32` saturating addition followed by the
clamp to `MAX.0`. -/
def saturating_add (a b : Nat) : Nat :=
  const_sat_from_c_uint (min (a + b) (uintMod - 1))

/-- `BitmapIndex::saturating_sub` (`u32::saturating_sub` is truncated
subtraction). -/
def saturating_sub (a b : Nat) : Nat := a - b

/-- `BitmapIndex::saturating_mul`. -/
def saturating_mul (a b : Nat) : Nat :=
  const_sat_from_c_uint (min (a * b) (uintMod - 1))

/-- `BitmapIndex::saturating_div` (`self.0 / rhs.0`; panics on a zero
divisor, so it is only meaningful for `b ≠ 0`). -/
def saturating_div (a b : Nat) : Nat := a / b

/-- `BitmapIndex::saturating_pow`. -/
def saturating_pow (a e : Nat) : Nat :=
  const_sat_from_c_uint (min (a ^ e) (uintMod - 1))

/-- `BitmapIndex::wrapping_add`: `self.0.wrapping_add(rhs.0) & MAX.0`. -/
def wrapping_add (a b : Nat) : Nat :=
  ((a + b) % uintMod) &&& maxVal

/-- `u32::wrapping_sub` on raw stored values (correct for `b < 2 ^ 32`). -/
def u32_wrapping_sub (a b : Nat) : Nat :=
  (a + (uintMod - b % uintMod)) % uintMod

/-- `BitmapIndex::wrapping_sub`: `self.0.wrapping_sub(rhs.0) & MAX.0`. -/
def wrapping_sub (a b : Nat) : Nat :=
  u32_wrapping_sub a b &&& maxVal

/-- `BitmapIndex::wrapping_mul`: `self.0.wrapping_mul(rhs.0) & MAX.0`. -/
def wrapping_mul (a b : Nat) : Nat :=
  ((a * b) % uintMod) &&& maxVal

/-- `BitmapIndex::wrapping_div` (plain division, panics on zero divisor). -/
def wrapping_div (a b : Nat) : Nat := a / b

/-- `BitmapIndex::wrapping_rem` (plain remainder, panics on zero divisor). -/
def wrapping_rem (a b : Nat) : Nat := a % b

/-- `BitmapIndex::wrapping_neg`: `self.0.wrapping_neg() & MAX.0`. -/
def wrapping_neg (a : Nat) : Nat :=
  ((uintMod - a % uintMod) % uintMod) &&& maxVal

/-- `BitmapIndex::wrapping_shl`: shift amount wrapped modulo
`EFFECTIVE_BITS`, then `(self.0 << amount) & MAX.0`. -/
def wrapping_shl (a s : Nat) : Nat :=
  ((a <<< (s % effectiveBits)) % uintMod) &&& maxVal

/-- `BitmapIndex::wrapping_shr`: shift amount wrapped modulo
`EFFECTIVE_BITS`, then `self.0 >> amount`. -/
def wrapping_shr (a s : Nat) : Nat :=
  a >>> (s % effectiveBits)

/-- `BitmapIndex::wrapping_pow`: `self.0.wrapping_pow(exp) & MAX.0`. -/
def wrapping_pow (a e : Nat) : Nat :=
  ((a ^ e) % uintMod) &&& maxVal

/-- `BitmapIndex::overflowing_add`: wrapped sum plus the overflow flag
`rhs.0 > MAX.0 - self.0` (the `u32` subtraction is exact for a valid
`self`). -/
def overflowing_add (a b : Nat) : Nat × Bool :=
  (wrapping_add a b, decide (maxVal - a < b))

/-- `BitmapIndex::overflowing_sub`: wrapped difference plus the flag
`rhs.0 > self.0`. -/
def overflowing_sub (a b : Nat) : Nat × Bool :=
  (wrapping_sub a b, decide (a < b))

/-- `BitmapIndex::overflowing_mul`: `u32` overflowing multiplication, with
the flag also raised when the `u32` product exceeds `MAX.0`. -/
def overflowing_mul (a b : Nat) : Nat × Bool :=
  (((a * b) % uintMod) &&& maxVal,
    decide (uintMod ≤ a * b) || decide (maxVal < (a * b) % uintMod))

/-- `BitmapIndex::overflowing_neg`: wrapped negation plus the flag
`self.0 != 0`. -/
def overflowing_neg (a : Nat) : Nat × Bool :=
  (wrapping_neg a, decide (a ≠ 0))

/-- `BitmapIndex::overflowing_shl`. -/
def overflowing_shl (a s : Nat) : Nat × Bool :=
  (wrapping_shl a s, decide (effectiveBits ≤ s))

/-- `BitmapIndex::overflowing_shr`. -/
def overflowing_shr (a s : Nat) : Nat × Bool :=
  (wrapping_shr a s, decide (effectiveBits ≤ s))

/-- `BitmapIndex::overflowing_pow`: `u32` overflowing exponentiation, with
the flag also raised when the `u32` result exceeds `MAX.0`. -/
def overflowing_pow (a e : Nat) : Nat × Bool :=
  (((a ^ e) % uintMod) &&& maxVal,
    decide (uintMod ≤ a ^ e) || decide (maxVal < (a ^ e) % uintMod))

/-- `BitmapIndex::abs_diff`. -/
def abs_diff (a b : Nat) : Nat :=
  if b ≤ a then a - b else b - a

/-- `BitmapIndex::rem_euclid` (`self.0 % rhs.0`, panics on zero divisor). -/
def rem_euclid (a b : Nat) : Nat := a % b

/-- `BitmapIndex::div_euclid` (`self.0 / rhs.0`, panics on zero divisor). -/
def div_euclid (a b : Nat) : Nat := a / b

/-- `BitmapIndex::rotate_impl`: a rotation is the bitwise OR of two masked
shifts in opposite directions, with the shift amounts derived from
`n % EFFECTIVE_BITS`. -/
def rotate_impl (a n : Nat) (left : Bool) : Nat :=
  let direct_shift := n % effectiveBits
  let opposite_shift := effectiveBits - direct_shift
  let left_shift := if left then direct_shift else opposite_shift
  let right_shift := if left then opposite_shift else direct_shift
  let high_order_bits := ((a <<< left_shift) % uintMod) &&& maxVal
  let low_order_bits := a >>> right_shift
  high_order_bits ||| low_order_bits

/-- `BitmapIndex::rotate_left`. -/
def rotate_left (a n : Nat) : Nat := rotate_impl a n true

/-- `BitmapIndex::rotate_right`. -/
def rotate_right (a n : Nat) : Nat := rotate_impl a n false

/-- `u32::next_power_of_two`, i.e. the smallest power of two at least the
argument (with `0 ↦ 1`).  This closed form agrees with the Rust intrinsic
for every argument reachable from a valid index (`a ≤ 2 ^ 31`). -/
def u32_next_power_of_two (a : Nat) : Nat :=
  2 ^ Nat.clog 2 a

/-- `BitmapIndex::checked_next_power_of_two`: `u32` checked next power of
two (which fails above `2 ^ 31`), then the `[0, MAX]` range check. -/
def checked_next_power_of_two (a : Nat) : Option Nat :=
  if 2 ^ effectiveBits < a then none
  else if u32_next_power_of_two a ≤ maxVal then some (u32_next_power_of_two a)
  else none

/-- `BitmapIndex::next_power_of_two`.  The `debug` flag selects the
`cfg!(debug_assertions)` branch; in debug mode an overflow panics (modeled
as `none`), in release mode the code computes
`self.0.next_power_of_two() % Self::MAX.0` — a reduction modulo `MAX`
itself, not modulo `2 ^ EFFECTIVE_BITS`. -/
def next_power_of_two (debug : Bool) (a : Nat) : Option Nat :=
  if debug then checked_next_power_of_two a
  else some (u32_next_power_of_two a % maxVal)

/-- `impl From<BitmapIndex> for usize`: the raw stored value, losslessly. -/
def usize_from (a : Nat) : Nat := a

/-- `impl TryFrom<usize> for BitmapIndex`: `usize -> c_int` conversion
(fails above `c_int::MAX = maxVal`), then `c_int -> c_uint` (cannot fail on
a non-negative value). -/
def try_from_usize (v : Nat) : Option Nat :=
  if v ≤ maxVal then some v else none

/-! #### Arithmetic bridge lemmas -/

theorem maxVal_eq : maxVal = 2 ^ 31 - 1 := rfl

theorem effectiveBits_eq : effectiveBits = 31 := rfl

theorem uintMod_eq : uintMod = 2 ^ 32 := rfl

/-- Masking with `MAX.0` is reduction modulo `2 ^ EFFECTIVE_BITS`. -/
theorem land_maxVal (x : Nat) : x &&& maxVal = x % 2 ^ 31 := by
  rw [maxVal_eq]
  exact Nat.and_pow_two_sub_one_eq_mod x 31

/-- A `u32`-wrapped value masked with `MAX.0` is the value modulo
`2 ^ EFFECTIVE_BITS`. -/
theorem mod_uintMod_land_maxVal (x : Nat) :
    (x % uintMod) &&& maxVal = x % 2 ^ 31 := by
  rw [land_maxVal, uintMod_eq, Nat.mod_mod_of_dvd]
  exact pow_dvd_pow 2 (by norm_num)

/-!
#### Claim C2 — checked / wrapping / overflowing addition
-/

/-- C2: for valid `a` and `b`, `checked_add` succeeds iff the mathematical
sum is in `[0, MAX]`; on success `wrapping_add` returns the same value; on
failure `wrapping_add` is the sum reduced modulo `2 ^ EFFECTIVE_BITS`; and
`overflowing_add` pairs the wrapped sum with the overflow flag. -/
theorem checked_wrapping_overflowing_add_spec (a b : Nat)
    (ha : a ≤ maxVal) (hb : b ≤ maxVal) :
    ((checked_add a b).isSome ↔ a + b ≤ maxVal) ∧
    (∀ v, checked_add a b = some v → wrapping_add a b = v) ∧
    (checked_add a b = none → wrapping_add a b = (a + b) % 2 ^ effectiveBits) ∧
    overflowing_add a b = (wrapping_add a b, decide (maxVal < a + b)) := by
  have hmax : maxVal = 2 ^ 31 - 1 := maxVal_eq
  have hsum : a + b < uintMod := by
    rw [uintMod_eq]; omega
  have hudef : u32_checked_add a b = some (a + b) := by
    simp [u32_checked_add, hsum]
  have hwrap : wrapping_add a b = (a + b) % 2 ^ 31 := by
    rw [wrapping_add, mod_uintMod_land_maxVal]
  refine ⟨?_, ?_, ?_, ?_⟩
  · simp [checked_add, hudef, const_try_from_c_uint]
  · intro v hv
    rw [checked_add, hudef] at hv
    simp only [const_try_from_c_uint] at hv
    split at hv
    · cases hv
      rw [hwrap, Nat.mod_eq_of_lt (by omega)]
    · cases hv
  · intro hnone
    rw [checked_add, hudef] at hnone
    simp only [const_try_from_c_uint] at hnone
    rw [hwrap, effectiveBits_eq]
  · rw [overflowing_add]
    congr 1
    simp only [decide_eq_decide]
    omega

/-- C2 witness at `a = maxVal`, `b = 2`. -/
theorem checked_wrapping_overflowing_add_spec_witness :
    maxVal ≤ maxVal ∧ 2 ≤ maxVal ∧
    (((checked_add maxVal 2).isSome ↔ maxVal + 2 ≤ maxVal) ∧
     (∀ v, checked_add maxVal 2 = some v → wrapping_add maxVal 2 = v) ∧
     (checked_add maxVal 2 = none →
       wrapping_add maxVal 2 = (maxVal + 2) % 2 ^ effectiveBits) ∧
     overflowing_add maxVal 2 = (wrapping_add maxVal 2, decide (maxVal < maxVal + 2))) :=
  ⟨Nat.le_refl _, by decide,
    checked_wrapping_overflowing_add_spec maxVal 2 (Nat.le_refl _) (by decide)⟩

/-!
#### Claim C8 — usize round-trip
-/

/-- C8: converting a valid index to `usize` and back succeeds and returns
the original value. -/
theorem usize_roundtrip (a : Nat) (ha : a ≤ maxVal) :
    try_from_usize (usize_from a) = some a := by
  simp [try_from_usize, usize_from, ha]

/-- C8 witness at `a = 12345`. -/
theorem usize_roundtrip_witness :
    12345 ≤ maxVal ∧ try_from_usize (usize_from 12345) = some 12345 :=
  ⟨by decide, usize_roundtrip 12345 (by decide)⟩

/-!
#### Rotation arithmetic
-/

/-- Bitwise OR with a disjoint low part below `2 ^ k` is addition. -/
theorem lor_mul_pow_eq_add (k : Nat) :
    ∀ a b : Nat, b < 2 ^ k → (a * 2 ^ k) ||| b = a * 2 ^ k + b := by
  induction k with
  | zero =>
    intro a b hb
    have hb0 : b = 0 := by omega
    subst hb0
    simp
  | succ k ih =>
    intro a b hb
    have hb2 : b.div2 < 2 ^ k := by
      rw [Nat.div2_val]
      rw [pow_succ] at hb
      omega
    have h1 : a * 2 ^ (k + 1) = Nat.bit false (a * 2 ^ k) := by
      rw [Nat.bit_val, pow_succ]
      ring_nf
      simp
    have h2 : b = Nat.bit b.bodd b.div2 := (Nat.bit_decomp b).symm
    calc a * 2 ^ (k + 1) ||| b
        = Nat.bit false (a * 2 ^ k) ||| Nat.bit b.bodd b.div2 := by rw [← h1, ← h2]
      _ = Nat.bit (false || b.bodd) ((a * 2 ^ k) ||| b.div2) := Nat.lor_bit _ _ _ _
      _ = Nat.bit b.bodd (a * 2 ^ k + b.div2) := by rw [Bool.false_or, ih a b.div2 hb2]
      _ = a * 2 ^ (k + 1) + b := by
          rw [Nat.bit_val]
          have hd := Nat.bodd_add_div2 b
          rw [pow_succ]
          ring_nf
          omega

/-- The characteristic closed form of the two summands appearing in a
rotation, and its range bound. -/
theorem rot_form_lt (x m k : Nat) (h : 2 ^ m * 2 ^ k = 2 ^ 31) (hx : x < 2 ^ 31) :
    (x % 2 ^ m) * 2 ^ k + x / 2 ^ m < 2 ^ 31 := by
  have hm : 0 < 2 ^ m := Nat.pos_pow_of_pos m (by norm_num)
  have hk : 0 < 2 ^ k := Nat.pos_pow_of_pos k (by norm_num)
  have h1 : x % 2 ^ m ≤ 2 ^ m - 1 := by
    have := Nat.mod_lt x hm
    omega
  have h2 : x / 2 ^ m < 2 ^ k := by
    rw [Nat.div_lt_iff_lt_mul hm, Nat.mul_comm (2 ^ k) (2 ^ m), h]
    exact hx
  have h3 : (x % 2 ^ m) * 2 ^ k ≤ (2 ^ m - 1) * 2 ^ k :=
    Nat.mul_le_mul_right _ h1
  have h4 : (2 ^ m - 1) * 2 ^ k = 2 ^ m * 2 ^ k - 2 ^ k := by
    rw [Nat.sub_mul, Nat.one_mul]
  rw [h] at h4
  have hge : 2 ^ k ≤ 2 ^ 31 := by
    calc 2 ^ k ≤ 2 ^ m * 2 ^ k := Nat.le_mul_of_pos_left _ hm
      _ = 2 ^ 31 := h
  omega

/-- Closed form of `rotate_impl _ _ true` (rotate left) for a valid index:
the amount `k = n % 31` splits the value at bit `31 - k`. -/
theorem rotate_impl_left_eq (a n : Nat) (ha : a ≤ maxVal) :
    rotate_impl a n true =
      (a % 2 ^ (31 - n % 31)) * 2 ^ (n % 31) + a / 2 ^ (31 - n % 31) := by
  have hk : n % 31 < 31 := Nat.mod_lt _ (by norm_num)
  have hmk : (31 - n % 31) + n % 31 = 31 := by omega
  have hsplit : 2 ^ (31 - n % 31) * 2 ^ (n % 31) = 2 ^ 31 := by
    rw [← pow_add, hmk]
  have ha' : a < 2 ^ 31 := by rw [maxVal_eq] at ha; omega
  have hdiv : a / 2 ^ (31 - n % 31) < 2 ^ (n % 31) := by
    rw [Nat.div_lt_iff_lt_mul (Nat.pos_pow_of_pos _ (by norm_num)),
      Nat.mul_comm, hsplit]
    exact ha'
  simp only [rotate_impl, effectiveBits_eq, if_true]
  rw [Nat.shiftLeft_eq, Nat.shiftRight_eq_div_pow, mod_uintMod_land_maxVal,
    ← hsplit, Nat.mul_mod_mul_right]
  exact lor_mul_pow_eq_add _ _ _ hdiv

/-- Closed form of `rotate_impl _ _ false` (rotate right) for a valid index:
the amount `k = n % 31` splits the value at bit `k`. -/
theorem rotate_impl_right_eq (a n : Nat) (ha : a ≤ maxVal) :
    rotate_impl a n false =
      (a % 2 ^ (n % 31)) * 2 ^ (31 - n % 31) + a / 2 ^ (n % 31) := by
  have hk : n % 31 < 31 := Nat.mod_lt _ (by norm_num)
  have hsplit : 2 ^ (n % 31) * 2 ^ (31 - n % 31) = 2 ^ 31 := by
    rw [← pow_add]
    congr 1
    omega
  have ha' : a < 2 ^ 31 := by rw [maxVal_eq] at ha; omega
  have hdiv : a / 2 ^ (n % 31) < 2 ^ (31 - n % 31) := by
    rw [Nat.div_lt_iff_lt_mul (Nat.pos_pow_of_pos _ (by norm_num)),
      Nat.mul_comm, hsplit]
    exact ha'
  simp only [rotate_impl, effectiveBits_eq, Bool.false_eq_true, if_false]
  rw [Nat.shiftLeft_eq, Nat.shiftRight_eq_div_pow, mod_uintMod_land_maxVal,
    ← hsplit, Nat.mul_mod_mul_right]
  exact lor_mul_pow_eq_add _ _ _ hdiv

/-!
#### Claim C7 — rotate round-trip
-/

/-- C7: rotating a valid index left then right by the same amount is the
identity. -/
theorem rotate_left_right_roundtrip (a n : Nat) (ha : a ≤ maxVal) :
    rotate_right (rotate_left a n) n = a := by
  have hk : n % 31 < 31 := Nat.mod_lt _ (by norm_num)
  have hsplit : 2 ^ (31 - n % 31) * 2 ^ (n % 31) = 2 ^ 31 := by
    rw [← pow_add]
    congr 1
    omega
  have ha' : a < 2 ^ 31 := by rw [maxVal_eq] at ha; omega
  have hy : rotate_left a n ≤ maxVal := by
    rw [rotate_left, rotate_impl_left_eq a n ha, maxVal_eq]
    have := rot_form_lt a (31 - n % 31) (n % 31) hsplit ha'
    omega
  have hdiv : a / 2 ^ (31 - n % 31) < 2 ^ (n % 31) := by
    rw [Nat.div_lt_iff_lt_mul (Nat.pos_pow_of_pos _ (by norm_num)),
      Nat.mul_comm, hsplit]
    exact ha'
  rw [rotate_right, rotate_impl_right_eq _ n hy, rotate_left,
    rotate_impl_left_eq a n ha]
  have hmod : ((a % 2 ^ (31 - n % 31)) * 2 ^ (n % 31) + a / 2 ^ (31 - n % 31))
      % 2 ^ (n % 31) = a / 2 ^ (31 - n % 31) := by
    rw [Nat.add_comm, Nat.add_mul_mod_self_right, Nat.mod_eq_of_lt hdiv]
  have hdivy : ((a % 2 ^ (31 - n % 31)) * 2 ^ (n % 31) + a / 2 ^ (31 - n % 31))
      / 2 ^ (n % 31) = a % 2 ^ (31 - n % 31) := by
    rw [Nat.add_comm, Nat.add_mul_div_right _ _ (Nat.pos_pow_of_pos _ (by norm_num)),
      Nat.div_eq_of_lt hdiv, Nat.zero_add]
  rw [hmod, hdivy, Nat.mul_comm (a / 2 ^ (31 - n % 31)) (2 ^ (31 - n % 31))]
  exact Nat.div_add_mod a (2 ^ (31 - n % 31))

/-- C7 witness at `a = 123456789`, `n = 100`. -/
theorem rotate_left_right_roundtrip_witness :
    123456789 ≤ maxVal ∧
    rotate_right (rotate_left 123456789 100) 100 = 123456789 :=
  ⟨by decide, rotate_left_right_roundtrip 123456789 100 (by decide)⟩

/-!
#### Claim C10 — release-mode next power of two
-/

/-- C10: in release mode, `next_power_of_two` of a value strictly above
`2 ^ (EFFECTIVE_BITS - 1)` is `ONE`, because the overflowed power
`2 ^ EFFECTIVE_BITS` is reduced modulo `MAX` itself (not modulo
`2 ^ EFFECTIVE_BITS`); below that threshold it is the usual least power of
two bound. -/
theorem next_power_of_two_release_spec (a : Nat) (ha : a ≤ maxVal) :
    (2 ^ (effectiveBits - 1) < a → next_power_of_two false a = some 1) ∧
    (a ≤ 2 ^ (effectiveBits - 1) →
      ∃ k, next_power_of_two false a = some (2 ^ k) ∧ a ≤ 2 ^ k ∧
        ∀ j, a ≤ 2 ^ j → 2 ^ k ≤ 2 ^ j) := by
  constructor
  · intro hbig
    have h31 : Nat.clog 2 a = 31 := by
      have hub : Nat.clog 2 a ≤ 31 := by
        rw [← Nat.le_pow_iff_clog_le (by norm_num)]
        rw [maxVal_eq] at ha
        omega
      have hlb : ¬ Nat.clog 2 a ≤ 30 := by
        intro hcontra
        rw [← Nat.le_pow_iff_clog_le (by norm_num)] at hcontra
        rw [effectiveBits_eq] at hbig
        norm_num at hbig hcontra
        omega
      omega
    simp only [next_power_of_two, if_neg (Bool.false_ne_true), Bool.false_eq_true,
      if_false, u32_next_power_of_two, h31]
    congr 1
  · intro hsmall
    refine ⟨Nat.clog 2 a, ?_, Nat.le_pow_clog (by norm_num) a, ?_⟩
    · have hle : Nat.clog 2 a ≤ 30 := by
        rw [← Nat.le_pow_iff_clog_le (by norm_num)]
        rw [effectiveBits_eq] at hsmall
        exact hsmall
      have hlt : 2 ^ Nat.clog 2 a < maxVal := by
        calc 2 ^ Nat.clog 2 a ≤ 2 ^ 30 := Nat.pow_le_pow_right (by norm_num) hle
          _ < maxVal := by rw [maxVal_eq]; norm_num
      simp only [next_power_of_two, Bool.false_eq_true, if_false,
        u32_next_power_of_two]
      rw [Nat.mod_eq_of_lt hlt]
    · intro j hj
      exact Nat.pow_le_pow_right (by norm_num)
        ((Nat.le_pow_iff_clog_le (by norm_num)).1 hj)

/-- C10 witness at `a = 2 ^ 30 + 1` (overflow side) packaged with the small
side at the same theorem instance. -/
theorem next_power_of_two_release_spec_witness :
    2 ^ 30 + 1 ≤ maxVal ∧
    ((2 ^ (effectiveBits - 1) < 2 ^ 30 + 1 →
        next_power_of_two false (2 ^ 30 + 1) = some 1) ∧
     (2 ^ 30 + 1 ≤ 2 ^ (effectiveBits - 1) →
        ∃ k, next_power_of_two false (2 ^ 30 + 1) = some (2 ^ k) ∧
          2 ^ 30 + 1 ≤ 2 ^ k ∧ ∀ j, 2 ^ 30 + 1 ≤ 2 ^ j → 2 ^ k ≤ 2 ^ j)) :=
  ⟨by decide, next_power_of_two_release_spec (2 ^ 30 + 1) (by decide)⟩

/-!
#### Claim C9 — the stored-value invariant
-/

/-- Masking with `MAX.0` lands in the valid range. -/
theorem land_le_maxVal (x : Nat) : x &&& maxVal ≤ maxVal := by
  rw [land_maxVal, maxVal_eq]
  have := Nat.mod_lt x (show 0 < 2 ^ 31 by norm_num)
  omega

/-- C9: every operation of the embedded `BitmapIndex` arithmetic suite keeps
the stored value within `[0, MAX]` (checked results through their `some`
payload, overflowing results through their value component; division-based
operations under their nonzero-divisor precondition). -/
theorem bitmap_index_invariant_preserved (a b : Nat)
    (ha : a ≤ maxVal) (hb : b ≤ maxVal) :
    (∀ v, checked_add a b = some v → v ≤ maxVal) ∧
    (∀ v, checked_sub a b = some v → v ≤ maxVal) ∧
    (∀ v, checked_mul a b = some v → v ≤ maxVal) ∧
    (∀ v, checked_div a b = some v → v ≤ maxVal) ∧
    (∀ v, checked_rem a b = some v → v ≤ maxVal) ∧
    (∀ v, checked_neg a = some v → v ≤ maxVal) ∧
    (∀ s v, checked_shl a s = some v → v ≤ maxVal) ∧
    (∀ s v, checked_shr a s = some v → v ≤ maxVal) ∧
    (∀ e v, checked_pow a e = some v → v ≤ maxVal) ∧
    saturating_add a b ≤ maxVal ∧
    saturating_sub a b ≤ maxVal ∧
    saturating_mul a b ≤ maxVal ∧
    (b ≠ 0 → saturating_div a b ≤ maxVal) ∧
    (∀ e, saturating_pow a e ≤ maxVal) ∧
    wrapping_add a b ≤ maxVal ∧
    wrapping_sub a b ≤ maxVal ∧
    wrapping_mul a b ≤ maxVal ∧
    (b ≠ 0 → wrapping_div a b ≤ maxVal) ∧
    (b ≠ 0 → wrapping_rem a b ≤ maxVal) ∧
    wrapping_neg a ≤ maxVal ∧
    (∀ s, wrapping_shl a s ≤ maxVal) ∧
    (∀ s, wrapping_shr a s ≤ maxVal) ∧
    (∀ e, wrapping_pow a e ≤ maxVal) ∧
    (overflowing_add a b).1 ≤ maxVal ∧
    (overflowing_sub a b).1 ≤ maxVal ∧
    (overflowing_mul a b).1 ≤ maxVal ∧
    (overflowing_neg a).1 ≤ maxVal ∧
    (∀ s, (overflowing_shl a s).1 ≤ maxVal) ∧
    (∀ s, (overflowing_shr a s).1 ≤ maxVal) ∧
    (∀ e, (overflowing_pow a e).1 ≤ maxVal) ∧
    (∀ n, rotate_left a n ≤ maxVal) ∧
    (∀ n, rotate_right a n ≤ maxVal) ∧
    (b ≠ 0 → rem_euclid a b ≤ maxVal ∧ div_euclid a b ≤ maxVal) ∧
    abs_diff a b ≤ maxVal ∧
    (∀ x v, const_try_from_c_uint x = some v → v ≤ maxVal) ∧
    (∀ x, const_sat_from_c_uint x ≤ maxVal) ∧
    (∀ x v, try_from_usize x = some v → v ≤ maxVal) ∧
    (∀ d v, next_power_of_two d a = some v → v ≤ maxVal) ∧
    (∀ v, checked_next_power_of_two a = some v → v ≤ maxVal) := by
  have htry : ∀ x v, const_try_from_c_uint x = some v → v ≤ maxVal := by
    intro x v hv
    simp only [const_try_from_c_uint] at hv
    split at hv
    · cases hv; assumption
    · cases hv
  have hsat : ∀ x, const_sat_from_c_uint x ≤ maxVal := by
    intro x
    simp only [const_sat_from_c_uint]
    split
    · assumption
    · exact Nat.le_refl _
  have hshr : ∀ s, a >>> s ≤ maxVal := by
    intro s
    rw [Nat.shiftRight_eq_div_pow]
    exact Nat.le_trans (Nat.div_le_self _ _) ha
  have ha' : a < 2 ^ 31 := by rw [maxVal_eq] at ha; omega
  have hrotl : ∀ n, rotate_left a n ≤ maxVal := by
    intro n
    rw [rotate_left, rotate_impl_left_eq a n ha, maxVal_eq]
    have hsplit : 2 ^ (31 - n % 31) * 2 ^ (n % 31) = 2 ^ 31 := by
      rw [← pow_add]
      congr 1
      have : n % 31 < 31 := Nat.mod_lt _ (by norm_num)
      omega
    have := rot_form_lt a (31 - n % 31) (n % 31) hsplit ha'
    omega
  have hrotr : ∀ n, rotate_right a n ≤ maxVal := by
    intro n
    rw [rotate_right, rotate_impl_right_eq a n ha, maxVal_eq]
    have hsplit : 2 ^ (n % 31) * 2 ^ (31 - n % 31) = 2 ^ 31 := by
      rw [← pow_add]
      congr 1
      have : n % 31 < 31 := Nat.mod_lt _ (by norm_num)
      omega
    have := rot_form_lt a (n % 31) (31 - n % 31) hsplit ha'
    omega
  have hcnpot : ∀ v, checked_next_power_of_two a = some v → v ≤ maxVal := by
    intro v hv
    simp only [checked_next_power_of_two] at hv
    split at hv
    · cases hv
    · split at hv
      · cases hv; assumption
      · cases hv
  refine ⟨?_, ?_, ?_, ?_, ?_, ?_, ?_, ?_, ?_, ?_, ?_, ?_, ?_, ?_, ?_, ?_, ?_,
    ?_, ?_, ?_, ?_, ?_, ?_, ?_, ?_, ?_, ?_, ?_, ?_, ?_, hrotl, hrotr, ?_, ?_,
    htry, hsat, ?_, ?_, hcnpot⟩
  · intro v hv
    rw [checked_add] at hv
    cases hu : u32_checked_add a b with
    | none => rw [hu] at hv; cases hv
    | some i => rw [hu] at hv; exact htry i v hv
  · intro v hv
    simp only [checked_sub] at hv
    split at hv
    · cases hv; exact Nat.le_trans (Nat.sub_le _ _) ha
    · cases hv
  · intro v hv
    rw [checked_mul] at hv
    cases hu : u32_checked_mul a b with
    | none => rw [hu] at hv; cases hv
    | some i => rw [hu] at hv; exact htry i v hv
  · intro v hv
    simp only [checked_div] at hv
    split at hv
    · cases hv
    · cases hv; exact Nat.le_trans (Nat.div_le_self _ _) ha
  · intro v hv
    simp only [checked_rem] at hv
    split at hv
    · cases hv
    · cases hv; exact Nat.le_trans (Nat.mod_le _ _) ha
  · intro v hv
    simp only [checked_neg] at hv
    split at hv
    · cases hv; exact Nat.zero_le _
    · cases hv
  · intro s v hv
    simp only [checked_shl] at hv
    split at hv
    · cases hv; exact land_le_maxVal _
    · cases hv
  · intro s v hv
    simp only [checked_shr] at hv
    split at hv
    · cases hv; exact hshr s
    · cases hv
  · intro e v hv
    rw [checked_pow] at hv
    cases hu : u32_checked_pow a e with
    | none => rw [hu] at hv; cases hv
    | some i => rw [hu] at hv; exact htry i v hv
  · exact hsat _
  · exact Nat.le_trans (Nat.sub_le _ _) ha
  · exact hsat _
  · intro _; exact Nat.le_trans (Nat.div_le_self _ _) ha
  · intro e; exact hsat _
  · exact land_le_maxVal _
  · exact land_le_maxVal _
  · exact land_le_maxVal _
  · intro _; exact Nat.le_trans (Nat.div_le_self _ _) ha
  · intro hb0
    exact Nat.le_trans (Nat.le_of_lt (Nat.mod_lt _ (Nat.pos_of_ne_zero hb0))) hb
  · exact land_le_maxVal _
  · intro s; exact land_le_maxVal _
  · intro s; exact hshr _
  · intro e; exact land_le_maxVal _
  · exact land_le_maxVal _
  · exact land_le_maxVal _
  · exact land_le_maxVal _
  · exact land_le_maxVal _
  · intro s; exact land_le_maxVal _
  · intro s; exact hshr _
  · intro e; exact land_le_maxVal _
  · intro hb0
    refine ⟨Nat.le_trans (Nat.mod_le _ _) ha, Nat.le_trans (Nat.div_le_self _ _) ha⟩
  · simp only [abs_diff]
    split
    · exact Nat.le_trans (Nat.sub_le _ _) ha
    · exact Nat.le_trans (Nat.sub_le _ _) hb
  · intro x v hv
    simp only [try_from_usize] at hv
    split at hv
    · cases hv; assumption
    · cases hv
  · intro d v hv
    simp only [next_power_of_two] at hv
    split at hv
    · exact hcnpot v hv
    · cases hv
      have hpos : 0 < maxVal := by rw [maxVal_eq]; norm_num
      exact Nat.le_of_lt (Nat.mod_lt _ hpos)

/-- C9 witness at `a = 7`, `b = 9`. -/
theorem bitmap_index_invariant_preserved_witness :
    7 ≤ maxVal ∧ 9 ≤ maxVal ∧ wrapping_add 7 9 ≤ maxVal ∧
    (∀ n, rotate_left 7 n ≤ maxVal) :=
  ⟨by decide, by decide,
    (bitmap_index_invariant_preserved 7 9 (by decide) (by decide)).2.2.2.2.2.2.2.2.2.2.2.2.2.2.1,
    (bitmap_index_invariant_preserved 7 9 (by decide) (by decide)).2.2.2.2.2.2.2.2.2.2.2.2.2.2.2.2.2.2.2.2.2.2.2.2.2.2.2.2.2.2.1⟩

/-!
### Depth model and cache depth resolution (src/object/mod.rs)

The topology is consumed through the abstract fact-source interface of the
native library: per-depth object counts, random access by (depth, rank),
and object attributes.  `Depth` distinguishes normal tree depths from the
virtual depths.
-/

/-- `CacheType` (unified / data / instruction caches). -/
inductive CacheType where
  | unified
  | data
  | instruction
  deriving DecidableEq, Repr

/-- `Depth`: a normal tree depth or one of the virtual depths. -/
inductive Depth where
  | normal (n : Nat)
  | numaNode
  | bridge
  | pciDevice
  | osDevice
  | misc
  deriving DecidableEq, Repr

/-- `TypeToDepthError` (the FFI-decoding `Unexpected` variant is omitted:
it is never constructed by the embedded operations). -/
inductive TypeToDepthError where
  | nonexistent
  | multiple
  deriving DecidableEq, Repr

/-- The slice of `ObjectAttributes` that `depth_for_cache` inspects: either
cache attributes (`CacheAttributes::depth` is the cache level) or some
non-cache attribute payload. -/
inductive ObjAttr where
  | cache (level : Nat) (ctype : CacheType)
  | other
  deriving DecidableEq, Repr

/-- The fact-source view used by `depth_for_cache`: the normal tree depth,
per-depth object counts, and the attributes of the object at each
(depth, rank) position. -/
structure CacheTopo where
  depth : Nat
  numObjsAtDepth : Nat → Nat
  attrAt : Nat → Nat → Option ObjAttr

/-- `self.objects_at_depth(depth).take(1)` followed by `obj.attributes()`:
the attributes of the sampled first object of a depth, or `none` when the
depth is empty or the object carries no attributes (both cases skip the
loop body). -/
def sampled_attr (t : CacheTopo) (d : Nat) : Option ObjAttr :=
  if t.numObjsAtDepth d = 0 then none else t.attrAt d 0

/-- Loop of `Topology::depth_for_cache` over the remaining normal depths,
carrying the `result` accumulator; the source's early `return`s are modeled
by returning directly instead of recursing.  The source marks the
accumulator state `Err(Multiple)` as `unreachable!`; the corresponding dead
arm below returns it unchanged. -/
def depth_for_cache_aux (t : CacheTopo) (lvl : Nat) (cty : Option CacheType) :
    List Nat → Except TypeToDepthError Depth → Except TypeToDepthError Depth
  | [], result => result
  | d :: rest, result =>
    match sampled_attr t d with
    | some (.cache clevel ctype) =>
      if clevel ≠ lvl then depth_for_cache_aux t lvl cty rest result
      else
        match cty with
        | some want =>
          if ctype = want ∨ ctype = CacheType.unified then .ok (.normal d)
          else depth_for_cache_aux t lvl cty rest result
        | none =>
          match result with
          | .error .nonexistent => depth_for_cache_aux t lvl cty rest (.ok (.normal d))
          | .ok _ => .error .multiple
          | .error .multiple => .error .multiple
    | _ => depth_for_cache_aux t lvl cty rest result

/-- `Topology::depth_for_cache`: scan normal depths `0 ..< self.depth()`
starting from `Err(Nonexistent)`. -/
def depth_for_cache (t : CacheTopo) (lvl : Nat) (cty : Option CacheType) :
    Except TypeToDepthError Depth :=
  depth_for_cache_aux t lvl cty (List.range t.depth) (.error .nonexistent)

/-- A depth whose sampled object is a cache of the requested level. -/
def cache_level_matches (t : CacheTopo) (lvl d : Nat) : Bool :=
  match sampled_attr t d with
  | some (.cache clevel _) => clevel == lvl
  | _ => false

/-- A depth whose sampled object is a cache of the requested level and
whose type is the requested one or `Unified`. -/
def cache_type_matches (t : CacheTopo) (lvl : Nat) (want : CacheType) (d : Nat) :
    Bool :=
  match sampled_attr t d with
  | some (.cache clevel ctype) =>
    clevel == lvl && (ctype == want || ctype == CacheType.unified)
  | _ => false

/-- Unfolding of the `depth_for_cache` loop at a cons cell. -/
theorem depth_for_cache_aux_cons (t : CacheTopo) (lvl : Nat) (cty : Option CacheType)
    (d : Nat) (rest : List Nat) (result : Except TypeToDepthError Depth) :
    depth_for_cache_aux t lvl cty (d :: rest) result =
      match sampled_attr t d with
      | some (.cache clevel ctype) =>
        if clevel ≠ lvl then depth_for_cache_aux t lvl cty rest result
        else
          match cty with
          | some want =>
            if ctype = want ∨ ctype = CacheType.unified then .ok (.normal d)
            else depth_for_cache_aux t lvl cty rest result
          | none =>
            match result with
            | .error .nonexistent => depth_for_cache_aux t lvl cty rest (.ok (.normal d))
            | .ok _ => .error .multiple
            | .error .multiple => .error .multiple
      | _ => depth_for_cache_aux t lvl cty rest result := by
  rw [depth_for_cache_aux.eq_def]

/-- With a type filter, the loop returns the first matching depth no matter
the accumulator. -/
theorem depth_for_cache_aux_some (t : CacheTopo) (lvl : Nat) (want : CacheType) :
    ∀ (l : List Nat) (result : Except TypeToDepthError Depth),
      depth_for_cache_aux t lvl (some want) l result =
        match l.find? (cache_type_matches t lvl want) with
        | some d => .ok (.normal d)
        | none => result := by
  intro l
  induction l with
  | nil => intro result; rfl
  | cons d rest ih =>
    intro result
    cases hattr : sampled_attr t d with
    | none =>
      have hm : cache_type_matches t lvl want d = false := by
        simp [cache_type_matches, hattr]
      rw [List.find?_cons_of_neg _ (by simp [hm]), depth_for_cache_aux_cons, hattr]
      exact ih result
    | some attr =>
      cases attr with
      | other =>
        have hm : cache_type_matches t lvl want d = false := by
          simp [cache_type_matches, hattr]
        rw [List.find?_cons_of_neg _ (by simp [hm]), depth_for_cache_aux_cons, hattr]
        exact ih result
      | cache clevel ctype =>
        rw [depth_for_cache_aux_cons, hattr]
        dsimp only
        by_cases hl : clevel = lvl
        · subst hl
          rw [if_neg (fun h => h rfl)]
          by_cases hty : ctype = want ∨ ctype = CacheType.unified
          · have hm : cache_type_matches t clevel want d = true := by
              simp only [cache_type_matches, hattr, beq_self_eq_true, Bool.true_and,
                Bool.or_eq_true, beq_iff_eq]
              exact hty
            rw [if_pos hty, List.find?_cons_of_pos _ hm]
          · have hm : cache_type_matches t clevel want d = false := by
              simp only [cache_type_matches, hattr, beq_self_eq_true, Bool.true_and,
                Bool.or_eq_true, beq_iff_eq]
              simpa using hty
            rw [if_neg hty, List.find?_cons_of_neg _ (by simp [hm]), ih result]
        · have hm : cache_type_matches t lvl want d = false := by
            simp [cache_type_matches, hattr, hl]
          rw [if_pos hl, List.find?_cons_of_neg _ (by simp [hm]), ih result]

/-- Without a type filter, the loop counts level matches through its
accumulator: from the `Nonexistent` start it returns the unique match,
`Multiple` for two or more, `Nonexistent` for none; from an `Ok` start any
further match is `Multiple`. -/
theorem depth_for_cache_aux_none (t : CacheTopo) (lvl : Nat) :
    ∀ (l : List Nat),
      (depth_for_cache_aux t lvl none l (.error .nonexistent) =
        match l.filter (cache_level_matches t lvl) with
        | [] => .error .nonexistent
        | [d] => .ok (.normal d)
        | _ :: _ :: _ => .error .multiple) ∧
      (∀ x, depth_for_cache_aux t lvl none l (.ok x) =
        match l.filter (cache_level_matches t lvl) with
        | [] => .ok x
        | _ :: _ => .error .multiple) := by
  intro l
  induction l with
  | nil => exact ⟨rfl, fun _ => rfl⟩
  | cons d rest ih =>
    cases hmatch : cache_level_matches t lvl d with
    | false =>
      have hskip : ∀ result,
          depth_for_cache_aux t lvl none (d :: rest) result =
            depth_for_cache_aux t lvl none rest result := by
        intro result
        simp only [cache_level_matches] at hmatch
        cases hattr : sampled_attr t d with
        | none => rw [depth_for_cache_aux_cons, hattr]
        | some attr =>
          cases attr with
          | other => rw [depth_for_cache_aux_cons, hattr]
          | cache clevel ctype =>
            rw [hattr] at hmatch
            have hne : clevel ≠ lvl := by simpa using hmatch
            rw [depth_for_cache_aux_cons, hattr]
            dsimp only
            rw [if_pos hne]
      rw [List.filter_cons_of_neg (by simp [hmatch])]
      exact ⟨by rw [hskip, ih.1], fun x => by rw [hskip, ih.2 x]⟩
    | true =>
      have hcore : ∀ result,
          depth_for_cache_aux t lvl none (d :: rest) result =
            match result with
            | .error .nonexistent => depth_for_cache_aux t lvl none rest (.ok (.normal d))
            | .ok _ => .error .multiple
            | .error .multiple => .error .multiple := by
        intro result
        simp only [cache_level_matches] at hmatch
        cases hattr : sampled_attr t d with
        | none => rw [hattr] at hmatch; cases hmatch
        | some attr =>
          cases attr with
          | other => rw [hattr] at hmatch; cases hmatch
          | cache clevel ctype =>
            rw [hattr] at hmatch
            have heq : clevel = lvl := by simpa using hmatch
            rw [depth_for_cache_aux_cons, hattr]
            dsimp only
            rw [if_neg (fun h => h heq)]
      rw [List.filter_cons_of_pos (by simp [hmatch])]
      refine ⟨?_, ?_⟩
      · rw [hcore, ih.2 (.normal d)]
        cases hf : rest.filter (cache_level_matches t lvl) with
        | nil => rfl
        | cons y ys => rfl
      · intro x
        rw [hcore]

/-!
#### Claim C3 — cache depth resolution
-/

/-- C3: with a type filter, `depth_for_cache` returns the first normal
depth whose sampled object is a cache of the requested level with the
requested type or `Unified` (or `Nonexistent`); without a filter it
returns the unique level-matching depth, `Multiple` when several distinct
depths match, `Nonexistent` when none does. -/
theorem depth_for_cache_spec (t : CacheTopo) (lvl : Nat) :
    (∀ want : CacheType,
      depth_for_cache t lvl (some want) =
        match (List.range t.depth).find? (cache_type_matches t lvl want) with
        | some d => .ok (.normal d)
        | none => .error .nonexistent) ∧
    (depth_for_cache t lvl none =
        match (List.range t.depth).filter (cache_level_matches t lvl) with
        | [] => .error .nonexistent
        | [d] => .ok (.normal d)
        | _ :: _ :: _ => .error .multiple) := by
  refine ⟨fun want => ?_, ?_⟩
  · rw [depth_for_cache, depth_for_cache_aux_some]
  · rw [depth_for_cache, (depth_for_cache_aux_none t lvl (List.range t.depth)).1]

/-!
### Object enumeration by type (src/object/mod.rs)
-/

/-- Modelled from the spec: the object-type enumeration of §3 (the crate's
`ObjectType` lives in object/types.rs, which is not under src/).  Only
equality on it is used by the embedded code. -/
inductive ObjectType where
  | machine
  | package
  | core
  | pu
  | l1Cache
  | l2Cache
  | l3Cache
  | group
  | numaNode
  | bridge
  | pciDevice
  | osDevice
  | misc
  deriving DecidableEq, Repr

/-- Modelled from the spec: `Depth::VIRTUAL_DEPTHS`, the fixed list of
virtual depths of §3 (NUMANode, Bridge, PCIDevice, OSDevice, Misc), chained
after the normal depths by `objects_with_type` (object/depth.rs is not
under src/). -/
def virtualDepths : List Depth :=
  [.numaNode, .bridge, .pciDevice, .osDevice, .misc]

/-- The fact-source view consumed by `objects_with_type`: normal tree
depth, the type-to-depth query (`hwloc_get_type_depth`), the depth-to-type
query (`hwloc_get_depth_type`), per-depth object counts, and random object
access by (depth, rank); objects are identified by ids. -/
structure LevelTopo where
  depth : Nat
  typeToDepth : ObjectType → Except TypeToDepthError Depth
  typeAtDepth : Depth → Option ObjectType
  numObjsAtDepth : Depth → Nat
  objAt : Depth → Nat → Nat

/-- `Topology::objects_at_depth`: the length is obtained from the count
query and the elements are fetched by index (`(0..size).map(...)`). -/
def objects_at_depth (t : LevelTopo) (d : Depth) : List Nat :=
  (List.range (t.numObjsAtDepth d)).map (t.objAt d)

/-- The depth enumeration inside `objects_with_type`: normal depths in
ascending order chained with the virtual depths. -/
def enum_depths (t : LevelTopo) : List Depth :=
  (List.range t.depth).map Depth.normal ++ virtualDepths

/-- The depth filter of `objects_with_type`: when `depth_for_type` found a
unique depth, keep exactly it; otherwise fall back to comparing
`type_at_depth` with the requested type (the source's `.expect` on a
missing type cannot fire on enumerated depths of a well-formed fact
source). -/
def objects_with_type_depths (t : LevelTopo) (T : ObjectType) : List Depth :=
  (enum_depths t).filter fun d =>
    match t.typeToDepth T with
    | .ok td => d == td
    | .error _ => t.typeAtDepth d == some T

/-- The precomputed exact size of `objects_with_type`: the sum of the
per-depth counts over the filtered depth enumeration. -/
def objects_with_type_size (t : LevelTopo) (T : ObjectType) : Nat :=
  ((objects_with_type_depths t T).map t.numObjsAtDepth).sum

/-- `Topology::objects_with_type`: the concatenation of the per-depth
sequences over the filtered depth enumeration. -/
def objects_with_type (t : LevelTopo) (T : ObjectType) : List Nat :=
  (objects_with_type_depths t T).flatMap (objects_at_depth t)

/-!
#### Claim C4 — enumeration by type
-/

/-- C4: provided the fact source's type-to-depth query is consistent with
its depth-to-type query (a unique depth reported for `T` is exactly the
enumerated depth whose type is `T`), `objects_with_type` is the
concatenation, over the depth enumeration in order, of the per-depth
object sequences of the depths whose type is `T`, and its precomputed size
is the sum of the per-depth counts over those same depths. -/
theorem objects_with_type_spec (t : LevelTopo) (T : ObjectType)
    (hok : ∀ td, t.typeToDepth T = .ok td →
      ∀ d ∈ enum_depths t, (t.typeAtDepth d = some T ↔ d = td)) :
    objects_with_type t T =
      ((enum_depths t).filter (fun d => t.typeAtDepth d == some T)).flatMap
        (objects_at_depth t) ∧
    objects_with_type_size t T =
      (((enum_depths t).filter (fun d => t.typeAtDepth d == some T)).map
        t.numObjsAtDepth).sum := by
  have hfilter : objects_with_type_depths t T =
      (enum_depths t).filter (fun d => t.typeAtDepth d == some T) := by
    rw [objects_with_type_depths]
    cases htd : t.typeToDepth T with
    | error e =>
      apply List.filter_congr
      intro d _
      simp only [htd]
    | ok td =>
      apply List.filter_congr
      intro d hd
      simp only [htd]
      have hiff := hok td htd d hd
      by_cases h : d = td
      · subst h
        simp [hiff.2 rfl]
      · have : ¬ t.typeAtDepth d = some T := fun hc => h (hiff.1 hc)
        simp [h, this]
  exact ⟨by rw [objects_with_type, hfilter],
    by rw [objects_with_type_size, hfilter]⟩

/-- A concrete fact source for the C4 witness: Machine at depth 0, two PUs
at depth 1, one NUMA node at the virtual NUMANode depth. -/
def levelTopoW : LevelTopo where
  depth := 2
  typeToDepth := fun T =>
    match T with
    | .machine => .ok (.normal 0)
    | .pu => .ok (.normal 1)
    | .numaNode => .ok .numaNode
    | _ => .error .nonexistent
  typeAtDepth := fun d =>
    match d with
    | .normal 0 => some .machine
    | .normal 1 => some .pu
    | .numaNode => some .numaNode
    | _ => none
  numObjsAtDepth := fun d =>
    match d with
    | .normal 0 => 1
    | .normal 1 => 2
    | .numaNode => 1
    | _ => 0
  objAt := fun d i =>
    match d with
    | .normal 0 => 0
    | .normal 1 => 10 + i
    | .numaNode => 20
    | _ => 0

/-- C4 witness: the spec instantiated at `levelTopoW` and `PU`. -/
theorem objects_with_type_spec_witness :
    objects_with_type levelTopoW .pu =
      ((enum_depths levelTopoW).filter
        (fun d => levelTopoW.typeAtDepth d == some .pu)).flatMap
        (objects_at_depth levelTopoW) ∧
    objects_with_type_size levelTopoW .pu =
      (((enum_depths levelTopoW).filter
        (fun d => levelTopoW.typeAtDepth d == some .pu)).map
        levelTopoW.numObjsAtDepth).sum :=
  objects_with_type_spec levelTopoW .pu (by
    intro td htd d hd
    have htd' : Except.ok (ε := TypeToDepthError) (Depth.normal 1) = .ok td := htd
    injection htd' with h
    subst h
    fin_cases hd <;> decide)

/-!
### TopologyEditor::restrict (src/topology/editor.rs)

The editor's validation logic runs before the native mutation primitive.
The conversions `NodeSet::from_cpuset` / `CpuSet::from_nodeset` live in
repository modules outside src/ and the spec does not pin their semantics,
so they are abstract fields of the topology view; the native
`hwloc_topology_restrict` call is an abstract parameter obeying the §6
contract (atomic: applied, or rejected leaving the tree unchanged).  The
ENOMEM outcome aborts the process and therefore has no return value to
model.
-/

/-- `RestrictFlags` as a record of booleans (one per bitflag). -/
structure RestrictFlags where
  removeEmptied : Bool
  removeCpuless : Bool
  byNodeSet : Bool
  removeMemless : Bool
  adaptMisc : Bool
  adaptIO : Bool
  deriving DecidableEq, Repr

/-- The two kinds of specialized bitmaps (`BitmapKind`). -/
inductive BitmapKind where
  | cpuSet
  | nodeSet
  deriving DecidableEq, Repr

/-- The topology state observed by `restrict`: the topology cpuset and
nodeset, and the two cross conversions (abstract: their defining code is
outside src/). -/
structure EditTopo where
  cpuset : Finset Nat
  nodeset : Finset Nat
  nodesetFromCpuset : Finset Nat → Finset Nat
  cpusetFromNodeset : Finset Nat → Finset Nat

/-- The `(affected, other)` pair computed by `restrict`'s validation: the
restriction set intersected with the topology set of its kind, and the
converted set of the other kind. -/
def restrict_affected_other (t : EditTopo) (set : Finset Nat)
    (kind : BitmapKind) : Finset Nat × Finset Nat :=
  match kind with
  | .cpuSet =>
    let cpuset := set ∩ t.cpuset
    let nodeset := t.nodesetFromCpuset cpuset
    (cpuset, nodeset)
  | .nodeSet =>
    let nodeset := set ∩ t.nodeset
    let cpuset := t.cpusetFromNodeset nodeset
    (nodeset, cpuset)

/-- The flag configuration performed by `restrict` before calling the
native primitive: force `BY_NODE_SET` to match the set kind, clear the
hidden flags, and translate `REMOVE_EMPTIED` into `REMOVE_CPULESS` or
`REMOVE_MEMLESS`. -/
def restrict_munge_flags (kind : BitmapKind) (flags : RestrictFlags) :
    RestrictFlags :=
  let flags1 :=
    match kind with
    | .cpuSet => { flags with byNodeSet := false }
    | .nodeSet => { flags with byNodeSet := true }
  let flags2 := { flags1 with removeCpuless := false, removeMemless := false }
  if flags2.removeEmptied then
    match kind with
    | .cpuSet => { flags2 with removeEmptied := false, removeCpuless := true }
    | .nodeSet => { flags2 with removeEmptied := false, removeMemless := true }
  else flags2

/-- `TopologyEditor::restrict` (the `polymorphized` body): up-front
validation, flag configuration, then the native call.  `native` is the
abstract `hwloc_topology_restrict` primitive: `some` is the applied
outcome, `none` the EINVAL rejection (tree unchanged); the ENOMEM abort
terminates the process and is not a value. -/
def restrict (native : EditTopo → Finset Nat → RestrictFlags → Option EditTopo)
    (t : EditTopo) (set : Finset Nat) (kind : BitmapKind)
    (flags : RestrictFlags) : Except (Finset Nat) EditTopo :=
  let ao := restrict_affected_other t set kind
  if ao.1 = ∅ ∧ (flags.removeEmptied = true ∨ ao.2 = ∅) then
    .error set
  else
    match native t set (restrict_munge_flags kind flags) with
    | some t2 => .ok t2
    | none => .error set

/-!
#### Claim C1 — restriction validation
-/

/-- A topology view whose conversion of the empty cpuset is non-empty,
realizing the case that separates the claim's guard from the code's. -/
def editTopoC : EditTopo where
  cpuset := {0}
  nodeset := {7}
  nodesetFromCpuset := fun _ => {7}
  cpusetFromNodeset := fun _ => ∅

/-- The restrict flags with only `REMOVE_EMPTIED` set. -/
def flagsRE : RestrictFlags := ⟨true, false, false, false, false, false⟩

/-- A native primitive that applies every restriction unchanged. -/
def nativeOk : EditTopo → Finset Nat → RestrictFlags → Option EditTopo :=
  fun t _ _ => some t

/-- C1 counterexample: at a state where the restriction empties the
affected `CpuSet`, the `REMOVE_EMPTIED` flag is set and the other set
stays non-empty, the claim says the restriction is applied — but the code
returns the parameter error even though the native primitive would have
applied it. -/
theorem restrict_remove_emptied_rejected :
    (restrict_affected_other editTopoC {5} .cpuSet).1 = ∅ ∧
    flagsRE.removeEmptied = true ∧
    (restrict_affected_other editTopoC {5} .cpuSet).2 ≠ ∅ ∧
    (∀ t s f, nativeOk t s f = some t) ∧
    restrict nativeOk editTopoC {5} .cpuSet flagsRE = .error {5} :=
  ⟨by decide, rfl, by decide, fun _ _ _ => rfl, rfl⟩

/-- C1 amended: `restrict` returns the parameter error (without consulting
the native primitive, hence with the tree untouched) exactly when the
restriction would empty the affected set and moreover the remove-emptied
flag is set or the other set is empty as well; in every other case the
restriction is handed to the native all-or-nothing primitive with the
configured flags. -/
theorem restrict_validation_spec
    (native : EditTopo → Finset Nat → RestrictFlags → Option EditTopo)
    (t : EditTopo) (set : Finset Nat) (kind : BitmapKind)
    (flags : RestrictFlags) :
    ((restrict_affected_other t set kind).1 = ∅ ∧
      (flags.removeEmptied = true ∨ (restrict_affected_other t set kind).2 = ∅) →
      restrict native t set kind flags = .error set) ∧
    (¬ ((restrict_affected_other t set kind).1 = ∅ ∧
      (flags.removeEmptied = true ∨ (restrict_affected_other t set kind).2 = ∅)) →
      restrict native t set kind flags =
        match native t set (restrict_munge_flags kind flags) with
        | some t2 => .ok t2
        | none => .error set) := by
  constructor
  · intro h
    rw [restrict, if_pos h]
  · intro h
    rw [restrict, if_neg h]

/-- A topology view whose conversions return the empty set, used by the C1
witness. -/
def editTopoE : EditTopo where
  cpuset := {0}
  nodeset := {7}
  nodesetFromCpuset := fun _ => ∅
  cpusetFromNodeset := fun _ => ∅

/-- C1 witness: the amended validation at a concrete rejecting input (empty
affected set, no remove-emptied flag, empty other set). -/
theorem restrict_validation_spec_witness :
    ((restrict_affected_other editTopoE {5} .cpuSet).1 = ∅ ∧
      ((⟨false, false, false, false, false, false⟩ : RestrictFlags).removeEmptied = true ∨
        (restrict_affected_other editTopoE {5} .cpuSet).2 = ∅)) ∧
    restrict nativeOk editTopoE {5} .cpuSet
      ⟨false, false, false, false, false, false⟩ = .error {5} := by
  refine ⟨⟨by decide, Or.inr (by decide)⟩, ?_⟩
  exact (restrict_validation_spec nativeOk editTopoE {5} .cpuSet
    ⟨false, false, false, false, false, false⟩).1 ⟨by decide, Or.inr (by decide)⟩

/-!
### The object tree arena (src/object/mod.rs)

Per the §9 design note, the raw parent/child/cousin pointer graph is
modeled as an arena of objects addressed by stable indices; object
references become arena indices and `ptr::eq` becomes index equality.
-/

/-- An object of the arena view: parent link, depth, optional cpuset. -/
structure TreeObj where
  parent : Option Nat
  depth : Depth
  cpuset : Option (Finset Nat)

/-- The topology object arena. -/
structure Tree where
  objs : List TreeObj

/-- `TopologyObject::parent` as an arena index. -/
def parentOf (t : Tree) (i : Nat) : Option Nat :=
  (t.objs[i]?).bind (·.parent)

/-- `TopologyObject::depth`. -/
def depthOf (t : Tree) (i : Nat) : Option Depth :=
  (t.objs[i]?).map (·.depth)

/-- `TopologyObject::cpuset`. -/
def cpusetOf (t : Tree) (i : Nat) : Option (Finset Nat) :=
  (t.objs[i]?).bind (·.cpuset)

/-- The `Ancestors` walk with explicit fuel; the arena size bounds every
acyclic parent chain, so `ancestors` below never exhausts its fuel on a
well-formed tree. -/
def ancestors_from (t : Tree) : Nat → Nat → List Nat
  | 0, _ => []
  | fuel + 1, i =>
    match parentOf t i with
    | none => []
    | some p => p :: ancestors_from t fuel p

/-- `TopologyObject::ancestors`: the chain of parents up to the root. -/
def ancestors (t : Tree) (i : Nat) : List Nat :=
  ancestors_from t t.objs.length i

/-- `Topology::objects_at_depth` on the arena view: the objects of a depth
in enumeration (logical index) order. -/
def tree_objects_at_depth (t : Tree) (d : Depth) : List Nat :=
  (List.range t.objs.length).filter fun i => depthOf t i == some d

/-- The `obj_and_cpuset` helper: an object together with its cpuset (the
source `.expect`s the cpuset; on the well-formed inputs used here it is
always present, so the missing case is skipped). -/
def obj_and_cpuset (t : Tree) (i : Nat) : Option (Nat × Finset Nat) :=
  (cpusetOf t i).map fun cs => (i, cs)

/-- `find_larger_parent`: the first ancestor whose cpuset differs from the
known one. -/
def find_larger_parent (t : Tree) (i : Nat) (known : Finset Nat) :
    Option (Nat × Finset Nat) :=
  ((ancestors t i).filterMap (obj_and_cpuset t)).find? fun p =>
    decide (p.2 ≠ known)

/-!
### objects_closest_to (src/object/mod.rs)
-/

/-- `ClosestObjsError`. -/
inductive ClosestObjsError where
  | foreignTarget
  | missingCpuSet
  deriving DecidableEq, Repr

/-- The captured state of the `objects_closest_to` iterator closure.  The
two `Vec`s are stored head-popped-first: `cousins` lists the pending
cousins with the `Vec` top (`pop` side) first; `nextC` lists the deferred
cousins with the most recent `push` first, which is exactly the order in
which the next pass will pop them after the `swap`. -/
structure ClosestState where
  anc : Option (Nat × Finset Nat)
  cousins : List (Nat × Finset Nat)
  nextC : List (Nat × Finset Nat)

/-- The inner `while let Some(...) = cousins_and_cpusets.pop()` loop of an
iterator call: pop cousins until one is covered by the ancestor cpuset
(`ancestor_cpuset.includes(cousin_cpuset)`), pushing uncovered ones onto
the next-pass stack.  Returns either the emitted cousin with the remaining
stack, or the completed next-pass stack. -/
def scan_pass (acs : Finset Nat) :
    List (Nat × Finset Nat) → List (Nat × Finset Nat) →
    Option (Nat × List (Nat × Finset Nat)) × List (Nat × Finset Nat)
  | [], nextAcc => (none, nextAcc)
  | (c, ccs) :: rest, nextAcc =>
    if ccs ⊆ acs then (some (c, rest), nextAcc)
    else scan_pass acs rest ((c, ccs) :: nextAcc)

/-- One call of the `from_fn` closure of `objects_closest_to`, embedded
faithfully: the current ancestor is `take()`n at the top of the loop, and —
as in the source — it is NOT restored before `return Some(cousin)`, so the
state left behind by an emission has no current ancestor.  When the cousins
run out the closure advances to the next larger ancestor and swaps the two
stacks.  The fuel only bounds that ancestor-advancing loop and exceeds the
ancestor chain length at every use below. -/
def closest_next (t : Tree) : Nat → ClosestState → Option (Nat × ClosestState)
  | 0, _ => none
  | fuel + 1, s =>
    match s.anc with
    | none => none
    | some (a, acs) =>
      match scan_pass acs s.cousins s.nextC with
      | (some (c, rest), nextAcc) => some (c, ⟨none, rest, nextAcc⟩)
      | (none, nextAcc) =>
        match find_larger_parent t a acs with
        | none => none
        | some (a2, acs2) => closest_next t fuel ⟨some (a2, acs2), nextAcc, []⟩

/-- Materialization of the `objects_closest_to` iterator: call the closure
until it returns `None`. -/
def closest_run (t : Tree) : Nat → ClosestState → List Nat
  | 0, _ => []
  | fuel + 1, s =>
    match closest_next t (t.objs.length + 1) s with
    | none => []
    | some (c, s2) => c :: closest_run t fuel s2

/-- `Topology::objects_closest_to`: validate the target, collect its
same-depth cousins (excluding itself) with their cpusets, seed the state
with the first strictly-larger ancestor, and run the iterator. -/
def objects_closest_to (t : Tree) (i : Nat) :
    Except ClosestObjsError (List Nat) :=
  match t.objs[i]? with
  | none => .error .foreignTarget
  | some obj =>
    match obj.cpuset with
    | none => .error .missingCpuSet
    | some objCpuset =>
      let anc0 := find_larger_parent t i objCpuset
      let cousins :=
        ((tree_objects_at_depth t obj.depth).filter fun c => decide (c ≠ i)).filterMap
          (obj_and_cpuset t)
      .ok (closest_run t (cousins.length + t.objs.length + 2)
        ⟨anc0, cousins.reverse, []⟩)

/-!
#### Claim C5 — proximity enumeration
-/

/-- The failing input for C5: a machine with cpuset `{0, 1, 2}` and three
depth-1 children with cpusets `{0}`, `{1}`, `{2}`. -/
def treeBug : Tree where
  objs :=
    [⟨none, .normal 0, some {0, 1, 2}⟩,
     ⟨some 0, .normal 1, some {0}⟩,
     ⟨some 0, .normal 1, some {1}⟩,
     ⟨some 0, .normal 1, some {2}⟩]

/-- C5: on `treeBug`, object 1 has two cousins (objects 2 and 3), both
covered by the machine cpuset, yet the iterator yields only one object and
terminates: the closure `take()`s `ancestor_and_cpuset` and never restores
it before `return Some(cousin)`, so the call after any emission finds no
current ancestor and ends the iteration.  The claim (like the function's
own documentation) requires every other same-depth object to be
enumerated. -/
theorem objects_closest_to_truncated :
    objects_closest_to treeBug 1 = .ok [3] ∧
    (tree_objects_at_depth treeBug (.normal 1)).filter (fun c => decide (c ≠ 1))
      = [2, 3] :=
  ⟨rfl, rfl⟩

/-!
### common_ancestor (src/object/mod.rs)

`TopologyObject::common_ancestor` first collects the virtual-depth ancestor
prefixes of both objects and scans them pairwise, then walks the two
normal-depth parent chains upward in lock-step.  The source's
`normal_depth` helper panics (`expect`) on a non-normal depth; panics are
modeled as the `Except.error` layer, and loop fuels exceed the respective
chain lengths on every well-formed tree, as proved below.
-/

/-- `collect_virtual_ancestors`: the virtual-depth ancestors of an object
(in ascending order) together with its first normal-depth ancestor. -/
def collect_virtual_ancestors (t : Tree) : Nat → Nat → List Nat × Option Nat
  | 0, _ => ([], none)
  | fuel + 1, i =>
    match parentOf t i with
    | none => ([], none)
    | some p =>
      match depthOf t p with
      | some (.normal _) => ([], some p)
      | _ =>
        let r := collect_virtual_ancestors t fuel p
        (p :: r.1, r.2)

/-- The pairwise scan over the two virtual ancestor lists: the first
element of the first list that occurs in the second. -/
def first_shared_virtual : List Nat → List Nat → Option Nat
  | [], _ => none
  | a :: rest, l2 => if a ∈ l2 then some a else first_shared_virtual rest l2

/-- The `normal_depth` closure: extract a normal depth, panicking
(`Except.error`) otherwise. -/
def normal_depth (t : Tree) (i : Nat) : Except Unit Nat :=
  match depthOf t i with
  | some (.normal n) => .ok n
  | _ => .error ()

/-- One `while normal_depth(p) > target { p = p.parent()? }` climb.  The
inner `.ok none` is the source's `?` early return (no common ancestor);
`.error` is a panic or fuel exhaustion (both unreachable on well-formed
trees at the call sites below). -/
def climb_above (t : Tree) (target : Nat) : Nat → Nat → Except Unit (Option Nat)
  | 0, _ => .error ()
  | fuel + 1, i =>
    match normal_depth t i with
    | .error _ => .error ()
    | .ok d =>
      if target < d then
        match parentOf t i with
        | none => .ok none
        | some p => climb_above t target fuel p
      else .ok (some i)

/-- The lock-step loop of `common_ancestor` over the two normal-depth
parent chains: climb each side to the other's depth, stop at pointer
equality, advance both sides when the depths agree. -/
def ca_loop (t : Tree) : Nat → Nat → Nat → Except Unit (Option Nat)
  | 0, _, _ => .error ()
  | fuel + 1, p1, p2 =>
    match normal_depth t p2 with
    | .error _ => .error ()
    | .ok d2 =>
      match climb_above t d2 (t.objs.length + 1) p1 with
      | .error _ => .error ()
      | .ok none => .ok none
      | .ok (some q1) =>
        match normal_depth t q1 with
        | .error _ => .error ()
        | .ok d1 =>
          match climb_above t d1 (t.objs.length + 1) p2 with
          | .error _ => .error ()
          | .ok none => .ok none
          | .ok (some q2) =>
            if q1 = q2 then .ok (some q1)
            else if depthOf t q1 = depthOf t q2 then
              match parentOf t q1, parentOf t q2 with
              | some r1, some r2 => ca_loop t fuel r1 r2
              | _, _ => .ok none
            else ca_loop t fuel q1 q2

/-- `TopologyObject::common_ancestor`: the degenerate self case, the
virtual-prefix scan, then the normal-depth lock-step loop. -/
def common_ancestor (t : Tree) (i j : Nat) : Except Unit (Option Nat) :=
  if i = j then .ok (parentOf t i)
  else
    let r1 := collect_virtual_ancestors t t.objs.length i
    let r2 := collect_virtual_ancestors t t.objs.length j
    match first_shared_virtual r1.1 r2.1 with
    | some x => .ok (some x)
    | none =>
      match r1.2, r2.2 with
      | some p1, some p2 => ca_loop t (2 * t.objs.length + 2) p1 p2
      | _, _ => .ok none

/-- The specification-side first shared strict ancestor: the first element
of one ancestor chain that occurs in the other. -/
def first_shared (l1 l2 : List Nat) : Option Nat :=
  l1.find? fun x => decide (x ∈ l2)

/-!
#### Parent chains
-/

/-- `chain t i l`: `l` is the full (finite) strict ancestor list of `i`,
nearest parent first. -/
inductive Chain (t : Tree) : Nat → List Nat → Prop where
  | root (i : Nat) (h : parentOf t i = none) : Chain t i []
  | step (i p : Nat) (l : List Nat) (hp : parentOf t i = some p)
      (hl : Chain t p l) : Chain t i (p :: l)

/-- An object whose recorded depth is a normal depth. -/
def NormalAt (t : Tree) (x : Nat) : Prop :=
  ∃ n, depthOf t x = some (Depth.normal n)

/-- Well-formedness of the arena tree (the §3 invariants): parent links
stay inside the arena, a rank function certifies acyclicity, the parent of
a normal-depth object has a smaller normal depth, and normal depths are
bounded by the arena size. -/
structure TreeWF (t : Tree) (rank : Nat → Nat) : Prop where
  parent_valid : ∀ i p, parentOf t i = some p → p < t.objs.length
  rank_lt : ∀ i p, parentOf t i = some p → rank p < rank i
  parent_normal : ∀ i p n, parentOf t i = some p →
    depthOf t i = some (.normal n) → ∃ m, depthOf t p = some (.normal m) ∧ m < n
  depth_bound : ∀ i n, depthOf t i = some (.normal n) → n < t.objs.length

namespace ChainLemmas

variable {t : Tree} {rank : Nat → Nat}

/-- Every object has an ancestor chain (by strong induction on the rank). -/
theorem chain_exists (wf : TreeWF t rank) (i : Nat) : ∃ l, Chain t i l := by
  have H : ∀ r i, rank i ≤ r → ∃ l, Chain t i l := by
    intro r
    induction r with
    | zero =>
      intro i hi
      cases hp : parentOf t i with
      | none => exact ⟨[], Chain.root i hp⟩
      | some p =>
        have := wf.rank_lt i p hp
        omega
    | succ r ih =>
      intro i hi
      cases hp : parentOf t i with
      | none => exact ⟨[], Chain.root i hp⟩
      | some p =>
        obtain ⟨l, hl⟩ := ih p (by have := wf.rank_lt i p hp; omega)
        exact ⟨p :: l, Chain.step i p l hp hl⟩
  exact H (rank i) i (Nat.le_refl _)

/-- Ancestor chains are unique. -/
theorem chain_unique {i : Nat} {l l' : List Nat}
    (h : Chain t i l) (h' : Chain t i l') : l = l' := by
  induction h generalizing l' with
  | root i hp =>
    cases h' with
    | root => rfl
    | step _ p l hp' _ => rw [hp] at hp'; cases hp'
  | step i p l hp hl ih =>
    cases h' with
    | root _ hp' => rw [hp] at hp'; cases hp'
    | step _ p' l' hp' hl' =>
      rw [hp] at hp'
      cases hp'
      rw [ih hl']

/-- A chain restricted to the suffix after one of its elements is the
chain of that element. -/
theorem chain_suffix {i : Nat} {x : Nat} :
    ∀ {s r : List Nat}, Chain t i (s ++ x :: r) → Chain t x r := by
  intro s
  induction s generalizing i with
  | nil =>
    intro r h
    cases h with
    | step _ _ _ _ hl => exact hl
  | cons y s ih =>
    intro r h
    cases h with
    | step _ _ _ _ hl => exact ih hl

/-- Every chain element has a smaller rank than the chain's origin. -/
theorem chain_rank_lt (wf : TreeWF t rank) {i : Nat} {l : List Nat}
    (h : Chain t i l) : ∀ x ∈ l, rank x < rank i := by
  induction h with
  | root => intro x hx; cases hx
  | step i p l hp hl ih =>
    intro x hx
    rcases List.mem_cons.1 hx with rfl | hx
    · exact wf.rank_lt i x hp
    · exact Nat.lt_trans (ih x hx) (wf.rank_lt i p hp)

/-- Chains have no duplicates. -/
theorem chain_nodup (wf : TreeWF t rank) {i : Nat} {l : List Nat}
    (h : Chain t i l) : l.Nodup := by
  induction h with
  | root => exact List.nodup_nil
  | step i p l hp hl ih =>
    refine List.nodup_cons.2 ⟨fun hmem => ?_, ih⟩
    exact Nat.lt_irrefl _ (chain_rank_lt wf hl p hmem)

/-- Chain elements are valid arena indices. -/
theorem chain_mem_lt (wf : TreeWF t rank) {i : Nat} {l : List Nat}
    (h : Chain t i l) : ∀ x ∈ l, x < t.objs.length := by
  induction h with
  | root => intro x hx; cases hx
  | step i p l hp hl ih =>
    intro x hx
    rcases List.mem_cons.1 hx with rfl | hx
    · exact wf.parent_valid i x hp
    · exact ih x hx

/-- Chains are no longer than the arena. -/
theorem chain_length_le (wf : TreeWF t rank) {i : Nat} {l : List Nat}
    (h : Chain t i l) : l.length ≤ t.objs.length := by
  have hnd := chain_nodup wf h
  have hsub : l.toFinset ⊆ Finset.range t.objs.length := by
    intro x hx
    rw [Finset.mem_range]
    exact chain_mem_lt wf h x (List.mem_toFinset.1 hx)
  calc l.length = l.toFinset.card := (List.toFinset_card_of_nodup hnd).symm
    _ ≤ (Finset.range t.objs.length).card := Finset.card_le_card hsub
    _ = t.objs.length := Finset.card_range _

/-- With fuel at least the chain length, the fueled ancestor walk computes
the chain. -/
theorem ancestors_from_eq {i : Nat} {l : List Nat} (h : Chain t i l) :
    ∀ fuel, l.length ≤ fuel → ancestors_from t fuel i = l := by
  induction h with
  | root i hp =>
    intro fuel _
    cases fuel with
    | zero => rfl
    | succ f => rw [ancestors_from, hp]
  | step i p l hp hl ih =>
    intro fuel hlen
    cases fuel with
    | zero => simp at hlen
    | succ f =>
      rw [ancestors_from, hp]
      dsimp only
      rw [ih f (by simpa using hlen)]

/-- `ancestors` computes the chain on a well-formed tree. -/
theorem ancestors_eq (wf : TreeWF t rank) {i : Nat} {l : List Nat}
    (h : Chain t i l) : ancestors t i = l :=
  ancestors_from_eq h t.objs.length (chain_length_le wf h)

/-- The members of a chain element's own chain belong to the enclosing
chain. -/
theorem chain_mem_trans {i x : Nat} {l lx : List Nat}
    (h : Chain t i l) (hx : x ∈ l) (hcx : Chain t x lx) :
    ∀ y ∈ lx, y ∈ l := by
  obtain ⟨s, r, rfl⟩ := List.append_of_mem hx
  have := chain_suffix h
  have hr : lx = r := chain_unique hcx this
  subst hr
  intro y hy
  exact List.mem_append.2 (Or.inr (List.mem_cons.2 (Or.inr hy)))

/-- Along the chain of a normal-depth object, every element has a strictly
smaller normal depth. -/
theorem chain_depth_lt (wf : TreeWF t rank) {x : Nat} {lx : List Nat}
    (h : Chain t x lx) : ∀ dx, depthOf t x = some (.normal dx) →
    ∀ z ∈ lx, ∃ dz, depthOf t z = some (.normal dz) ∧ dz < dx := by
  induction h with
  | root => intro dx _ z hz; cases hz
  | step i p l hp hl ih =>
    intro dx hdx z hz
    obtain ⟨m, hm, hmlt⟩ := wf.parent_normal i p dx hp hdx
    rcases List.mem_cons.1 hz with rfl | hz
    · exact ⟨m, hm, hmlt⟩
    · obtain ⟨dz, hdz, hlt⟩ := ih m hm z hz
      exact ⟨dz, hdz, Nat.lt_trans hlt hmlt⟩

/-- A successful `find?` splits its list at the found element, with the
prefix failing the predicate. -/
theorem find?_some_decomp {p : Nat → Bool} :
    ∀ {l : List Nat} {b : Nat}, l.find? p = some b →
      ∃ s r, l = s ++ b :: r ∧ ∀ a ∈ s, p a = false := by
  intro l
  induction l with
  | nil => intro b h; cases h
  | cons a l ih =>
    intro b h
    rw [List.find?_cons] at h
    cases hpa : p a with
    | true =>
      simp only [hpa] at h
      cases h
      exact ⟨[], l, rfl, by intro x hx; cases hx⟩
    | false =>
      simp only [hpa] at h
      obtain ⟨s, r, rfl, hs⟩ := ih h
      refine ⟨a :: s, r, rfl, ?_⟩
      intro x hx
      rcases List.mem_cons.1 hx with rfl | hx
      · exact hpa
      · exact hs x hx

/-- If some shared element dominates every shared element through its own
chain, it is the first shared element. -/
theorem find?_shared_eq (wf : TreeWF t rank) {a : Nat} {la lb : List Nat}
    (ha : Chain t a la) {x : Nat} {lx : List Nat} (hx : Chain t x lx)
    (hxa : x ∈ la) (hxb : x ∈ lb)
    (hmin : ∀ y, y ∈ la → y ∈ lb → y = x ∨ y ∈ lx) :
    first_shared la lb = some x := by
  cases hfind : first_shared la lb with
  | none =>
    rw [first_shared, List.find?_eq_none] at hfind
    exact absurd (by simpa using hxb) (by simpa using hfind x hxa)
  | some x2 =>
    rw [first_shared] at hfind
    have hx2mem : x2 ∈ la := List.mem_of_find?_eq_some hfind
    have hx2b : x2 ∈ lb := by simpa using List.find?_some hfind
    obtain ⟨s, r, hla, hs⟩ := find?_some_decomp hfind
    have hcr : Chain t x2 r := by rw [hla] at ha; exact chain_suffix ha
    rcases hmin x2 hx2mem hx2b with rfl | hx2lx
    · rfl
    · have h1 : rank x2 < rank x := chain_rank_lt wf hx x2 hx2lx
      have hxla : x ∈ s ++ x2 :: r := by rw [← hla]; exact hxa
      rcases List.mem_append.1 hxla with hxs | hxcr
      · exact absurd hxb (by simpa using hs x hxs)
      · rcases List.mem_cons.1 hxcr with rfl | hxr
        · rfl
        · have h2 : rank x < rank x2 := chain_rank_lt wf hcr x hxr
          omega

/-- Unfolding of `climb_above` at positive fuel. -/
theorem climb_above_succ (target fuel i : Nat) :
    climb_above t target (fuel + 1) i =
      match normal_depth t i with
      | .error _ => .error ()
      | .ok d =>
        if target < d then
          match parentOf t i with
          | none => .ok none
          | some p => climb_above t target fuel p
        else .ok (some i) := by
  rw [climb_above.eq_def]

/-- Characterization of a `climb_above` run on a well-formed tree: either
no element of the closed chain is at or above the target depth (the climb
runs out of parents and yields the early `None` return), or the climb
stops at the first closed-chain element whose depth reaches the target,
every bypassed element sitting strictly below it. -/
theorem climb_spec (wf : TreeWF t rank) (target : Nat) :
    ∀ (fuel p : Nat) (lp : List Nat) (dp : Nat), Chain t p lp →
      depthOf t p = some (.normal dp) → lp.length < fuel →
      (climb_above t target fuel p = .ok none ∧
        ∀ x, (x = p ∨ x ∈ lp) →
          ∃ dx, depthOf t x = some (.normal dx) ∧ target < dx) ∨
      (∃ q lq dq, climb_above t target fuel p = .ok (some q) ∧
        (q = p ∨ q ∈ lp) ∧ Chain t q lq ∧ (∀ y ∈ lq, y ∈ lp) ∧
        depthOf t q = some (.normal dq) ∧ dq ≤ target ∧
        (∀ x, (x = p ∨ x ∈ lp) → x ≠ q → x ∉ lq →
          ∃ dx, depthOf t x = some (.normal dx) ∧ target < dx)) := by
  intro fuel
  induction fuel with
  | zero => intro p lp dp _ _ h; omega
  | succ f ih =>
    intro p lp dp hch hdp hlen
    have hnd : normal_depth t p = .ok dp := by rw [normal_depth, hdp]
    rw [climb_above_succ, hnd]
    dsimp only
    by_cases htgt : target < dp
    · rw [if_pos htgt]
      cases hch with
      | root _ hp =>
        rw [hp]
        left
        refine ⟨rfl, ?_⟩
        intro x hxmem
        rcases hxmem with rfl | hxl
        · exact ⟨dp, hdp, htgt⟩
        · cases hxl
      | step _ pp lpp hp hcpp =>
        rw [hp]
        dsimp only
        obtain ⟨dpp, hdpp, _⟩ := wf.parent_normal p pp dp hp hdp
        rcases ih pp lpp dpp hcpp hdpp (by simp at hlen; omega) with
          ⟨hres, hall⟩ | ⟨q, lq, dq, hres, hqmem, hqch, hqsub, hqdep, hqle, hskip⟩
        · rw [hres]
          left
          refine ⟨rfl, ?_⟩
          intro x hxmem
          rcases hxmem with rfl | hxl
          · exact ⟨dp, hdp, htgt⟩
          · rcases List.mem_cons.1 hxl with rfl | hxl
            · exact hall x (Or.inl rfl)
            · exact hall x (Or.inr hxl)
        · rw [hres]
          right
          refine ⟨q, lq, dq, rfl, ?_, hqch, ?_, hqdep, hqle, ?_⟩
          · rcases hqmem with rfl | hql
            · exact Or.inr (List.mem_cons.2 (Or.inl rfl))
            · exact Or.inr (List.mem_cons.2 (Or.inr hql))
          · intro y hy
            rcases hqmem with rfl | hql
            · exact List.mem_cons.2 (Or.inr (hqsub y hy))
            · exact List.mem_cons.2 (Or.inr (hqsub y hy))
          · intro x hxmem hxq hxlq
            rcases hxmem with rfl | hxl
            · exact ⟨dp, hdp, htgt⟩
            · rcases List.mem_cons.1 hxl with rfl | hxl
              · exact hskip x (Or.inl rfl) hxq hxlq
              · exact hskip x (Or.inr hxl) hxq hxlq
    · rw [if_neg htgt]
      right
      refine ⟨p, lp, dp, rfl, Or.inl rfl, hch, fun y hy => hy, hdp, by omega, ?_⟩
      intro x hxmem hxq hxlq
      rcases hxmem with rfl | hxl
      · exact absurd rfl hxq
      · exact absurd hxl hxlq

/-- Unfolding of `ca_loop` at positive fuel. -/
theorem ca_loop_succ (fuel p1 p2 : Nat) :
    ca_loop t (fuel + 1) p1 p2 =
      match normal_depth t p2 with
      | .error _ => .error ()
      | .ok d2 =>
        match climb_above t d2 (t.objs.length + 1) p1 with
        | .error _ => .error ()
        | .ok none => .ok none
        | .ok (some q1) =>
          match normal_depth t q1 with
          | .error _ => .error ()
          | .ok d1 =>
            match climb_above t d1 (t.objs.length + 1) p2 with
            | .error _ => .error ()
            | .ok none => .ok none
            | .ok (some q2) =>
              if q1 = q2 then .ok (some q1)
              else if depthOf t q1 = depthOf t q2 then
                match parentOf t q1, parentOf t q2 with
                | some r1, some r2 => ca_loop t fuel r1 r2
                | _, _ => .ok none
              else ca_loop t fuel q1 q2 := by
  rw [ca_loop.eq_def]

/-- Correctness of the lock-step loop: starting from two normal-depth
chain positions below which no shared ancestor exists, it computes the
first shared element of the two full ancestor chains. -/
theorem ca_loop_spec (wf : TreeWF t rank) {a b : Nat} {la lb : List Nat}
    (ha : Chain t a la) (hb : Chain t b lb) :
    ∀ (fuel p1 : Nat) (lp1 : List Nat) (d1 : Nat) (p2 : Nat) (lp2 : List Nat)
      (d2 : Nat),
      Chain t p1 lp1 → Chain t p2 lp2 →
      depthOf t p1 = some (.normal d1) → depthOf t p2 = some (.normal d2) →
      d1 + d2 < fuel →
      (∀ x, x = p1 ∨ x ∈ lp1 → x ∈ la) →
      (∀ x, x = p2 ∨ x ∈ lp2 → x ∈ lb) →
      (∀ y, y ∈ la → y ∈ lb → y = p1 ∨ y ∈ lp1) →
      (∀ y, y ∈ la → y ∈ lb → y = p2 ∨ y ∈ lp2) →
      ca_loop t fuel p1 p2 = .ok (first_shared la lb) := by
  intro fuel
  induction fuel with
  | zero => intro p1 lp1 d1 p2 lp2 d2 _ _ _ _ h _ _ _ _; omega
  | succ f ih =>
    intro p1 lp1 d1 p2 lp2 d2 hc1 hc2 hd1 hd2 hfuel subA subB invA invB
    have hnd2 : normal_depth t p2 = .ok d2 := by rw [normal_depth, hd2]
    rw [ca_loop_succ, hnd2]
    dsimp only
    rcases climb_spec wf d2 (t.objs.length + 1) p1 lp1 d1 hc1 hd1
        (Nat.lt_succ_of_le (chain_length_le wf hc1)) with
      ⟨hres1, hall1⟩ |
      ⟨q1, lq1, dq1, hres1, hq1mem, hq1ch, hq1sub, hq1dep, hq1le, hskip1⟩
    · rw [hres1]
      dsimp only
      congr 1
      symm
      rw [first_shared, List.find?_eq_none]
      intro y hyla hyb
      have hylb : y ∈ lb := by simpa using hyb
      obtain ⟨dy, hdy, hdygt⟩ := hall1 y (invA y hyla hylb)
      rcases invB y hyla hylb with rfl | hylp2
      · rw [hd2] at hdy; cases hdy; omega
      · obtain ⟨dz, hdz, hdzlt⟩ := chain_depth_lt wf hc2 d2 hd2 y hylp2
        rw [hdz] at hdy; cases hdy; omega
    · rw [hres1]
      dsimp only
      have subA' : ∀ x, x = q1 ∨ x ∈ lq1 → x ∈ la := by
        intro x hx
        rcases hx with rfl | hxl
        · exact subA x hq1mem
        · exact subA x (Or.inr (hq1sub x hxl))
      have invA' : ∀ y, y ∈ la → y ∈ lb → y = q1 ∨ y ∈ lq1 := by
        intro y hyla hylb
        by_contra hcon
        push_neg at hcon
        obtain ⟨dy, hdy, hdygt⟩ := hskip1 y (invA y hyla hylb) hcon.1 hcon.2
        rcases invB y hyla hylb with rfl | hylp2
        · rw [hd2] at hdy; cases hdy; omega
        · obtain ⟨dz, hdz, hdzlt⟩ := chain_depth_lt wf hc2 d2 hd2 y hylp2
          rw [hdz] at hdy; cases hdy; omega
      have hnd1 : normal_depth t q1 = .ok dq1 := by rw [normal_depth, hq1dep]
      rw [hnd1]
      dsimp only
      rcases climb_spec wf dq1 (t.objs.length + 1) p2 lp2 d2 hc2 hd2
          (Nat.lt_succ_of_le (chain_length_le wf hc2)) with
        ⟨hres2, hall2⟩ |
        ⟨q2, lq2, dq2, hres2, hq2mem, hq2ch, hq2sub, hq2dep, hq2le, hskip2⟩
      · rw [hres2]
        dsimp only
        congr 1
        symm
        rw [first_shared, List.find?_eq_none]
        intro y hyla hyb
        have hylb : y ∈ lb := by simpa using hyb
        obtain ⟨dy, hdy, hdygt⟩ := hall2 y (invB y hyla hylb)
        rcases invA' y hyla hylb with rfl | hylq1
        · rw [hq1dep] at hdy; cases hdy; omega
        · obtain ⟨dz, hdz, hdzlt⟩ := chain_depth_lt wf hq1ch dq1 hq1dep y hylq1
          rw [hdz] at hdy; cases hdy; omega
      · rw [hres2]
        dsimp only
        have subB' : ∀ x, x = q2 ∨ x ∈ lq2 → x ∈ lb := by
          intro x hx
          rcases hx with rfl | hxl
          · exact subB x hq2mem
          · exact subB x (Or.inr (hq2sub x hxl))
        have invB' : ∀ y, y ∈ la → y ∈ lb → y = q2 ∨ y ∈ lq2 := by
          intro y hyla hylb
          by_contra hcon
          push_neg at hcon
          obtain ⟨dy, hdy, hdygt⟩ := hskip2 y (invB y hyla hylb) hcon.1 hcon.2
          rcases invA' y hyla hylb with rfl | hylq1
          · rw [hq1dep] at hdy; cases hdy; omega
          · obtain ⟨dz, hdz, hdzlt⟩ := chain_depth_lt wf hq1ch dq1 hq1dep y hylq1
            rw [hdz] at hdy; cases hdy; omega
        by_cases heq : q1 = q2
        · subst heq
          rw [if_pos rfl]
          congr 1
          symm
          exact find?_shared_eq wf ha hq1ch (subA' q1 (Or.inl rfl))
            (subB' q1 (Or.inl rfl)) invA'
        · rw [if_neg heq]
          have hdq1le : dq1 ≤ d1 := by
            rcases hq1mem with rfl | hql
            · rw [hd1] at hq1dep; cases hq1dep; omega
            · obtain ⟨dz, hdz, hlt⟩ := chain_depth_lt wf hc1 d1 hd1 q1 hql
              rw [hdz] at hq1dep; cases hq1dep; omega
          by_cases hdep : depthOf t q1 = depthOf t q2
          · rw [if_pos hdep]
            have hdq12 : dq1 = dq2 := by
              rw [hq1dep, hq2dep] at hdep
              cases hdep
              rfl
            have hq1unsh : ¬ (q1 ∈ la ∧ q1 ∈ lb) := by
              rintro ⟨h1, h2⟩
              rcases invB' q1 h1 h2 with rfl | hql
              · exact heq rfl
              · obtain ⟨dz, hdz, hlt⟩ := chain_depth_lt wf hq2ch dq2 hq2dep q1 hql
                rw [hq1dep] at hdz; cases hdz; omega
            have hq2unsh : ¬ (q2 ∈ la ∧ q2 ∈ lb) := by
              rintro ⟨h1, h2⟩
              rcases invA' q2 h1 h2 with heq2 | hql
              · exact heq heq2.symm
              · obtain ⟨dz, hdz, hlt⟩ := chain_depth_lt wf hq1ch dq1 hq1dep q2 hql
                rw [hq2dep] at hdz; cases hdz; omega
            cases hpq1 : parentOf t q1 with
            | none =>
              have hlq1nil : lq1 = [] := by
                cases hq1ch with
                | root => rfl
                | step _ r l hp _ => rw [hpq1] at hp; cases hp
              dsimp only
              congr 1
              symm
              rw [first_shared, List.find?_eq_none]
              intro y hyla hyb
              have hylb : y ∈ lb := by simpa using hyb
              rcases invA' y hyla hylb with rfl | hyl
              · exact absurd ⟨hyla, hylb⟩ hq1unsh
              · rw [hlq1nil] at hyl; cases hyl
            | some r1 =>
              obtain ⟨lr1, rfl, hcr1⟩ :
                  ∃ lr1, lq1 = r1 :: lr1 ∧ Chain t r1 lr1 := by
                cases hq1ch with
                | root _ hp => rw [hpq1] at hp; cases hp
                | step _ r l hp hc =>
                  rw [hpq1] at hp; cases hp; exact ⟨l, rfl, hc⟩
              cases hpq2 : parentOf t q2 with
              | none =>
                have hlq2nil : lq2 = [] := by
                  cases hq2ch with
                  | root => rfl
                  | step _ r l hp _ => rw [hpq2] at hp; cases hp
                dsimp only
                congr 1
                symm
                rw [first_shared, List.find?_eq_none]
                intro y hyla hyb
                have hylb : y ∈ lb := by simpa using hyb
                rcases invB' y hyla hylb with rfl | hyl
                · exact absurd ⟨hyla, hylb⟩ hq2unsh
                · rw [hlq2nil] at hyl; cases hyl
              | some r2 =>
                obtain ⟨lr2, rfl, hcr2⟩ :
                    ∃ lr2, lq2 = r2 :: lr2 ∧ Chain t r2 lr2 := by
                  cases hq2ch with
                  | root _ hp => rw [hpq2] at hp; cases hp
                  | step _ r l hp hc =>
                    rw [hpq2] at hp; cases hp; exact ⟨l, rfl, hc⟩
                dsimp only
                obtain ⟨dr1, hdr1, hdr1lt⟩ :=
                  wf.parent_normal q1 r1 dq1 hpq1 hq1dep
                obtain ⟨dr2, hdr2, hdr2lt⟩ :=
                  wf.parent_normal q2 r2 dq2 hpq2 hq2dep
                refine ih r1 lr1 dr1 r2 lr2 dr2 hcr1 hcr2 hdr1 hdr2
                  (by omega) ?_ ?_ ?_ ?_
                · intro x hx
                  exact subA' x (Or.inr (List.mem_cons.2 hx))
                · intro x hx
                  exact subB' x (Or.inr (List.mem_cons.2 hx))
                · intro y hyla hylb
                  rcases invA' y hyla hylb with rfl | hyl
                  · exact absurd ⟨hyla, hylb⟩ hq1unsh
                  · exact List.mem_cons.1 hyl
                · intro y hyla hylb
                  rcases invB' y hyla hylb with rfl | hyl
                  · exact absurd ⟨hyla, hylb⟩ hq2unsh
                  · exact List.mem_cons.1 hyl
          · rw [if_neg hdep]
            have hdqne : dq1 ≠ dq2 := by
              intro heqd
              apply hdep
              rw [hq1dep, hq2dep, heqd]
            exact ih q1 lq1 dq1 q2 lq2 dq2 hq1ch hq2ch hq1dep hq2dep
              (by omega) subA' subB' invA' invB'

/-- Unfolding of `collect_virtual_ancestors` at a root. -/
theorem collect_virtual_succ_root {i : Nat} {fuel : Nat}
    (hp : parentOf t i = none) :
    collect_virtual_ancestors t (fuel + 1) i = ([], none) := by
  rw [collect_virtual_ancestors.eq_def]
  dsimp only
  rw [hp]

/-- Unfolding of `collect_virtual_ancestors` at a normal-depth parent. -/
theorem collect_virtual_succ_normal {i p n : Nat} {fuel : Nat}
    (hp : parentOf t i = some p) (hd : depthOf t p = some (.normal n)) :
    collect_virtual_ancestors t (fuel + 1) i = ([], some p) := by
  rw [collect_virtual_ancestors.eq_def]
  dsimp only
  rw [hp]
  dsimp only
  rw [hd]

/-- Unfolding of `collect_virtual_ancestors` at a virtual-depth parent. -/
theorem collect_virtual_succ_other {i p : Nat} {fuel : Nat}
    (hp : parentOf t i = some p) (hd : ¬ NormalAt t p) :
    collect_virtual_ancestors t (fuel + 1) i =
      (p :: (collect_virtual_ancestors t fuel p).1,
        (collect_virtual_ancestors t fuel p).2) := by
  rw [collect_virtual_ancestors.eq_def]
  dsimp only
  rw [hp]
  dsimp only
  cases hdp : depthOf t p with
  | none => rfl
  | some dep =>
    cases dep with
    | normal n => exact absurd ⟨n, hdp⟩ hd
    | numaNode => rfl
    | bridge => rfl
    | pciDevice => rfl
    | osDevice => rfl
    | misc => rfl

/-- Characterization of `collect_virtual_ancestors` on a well-formed tree:
it splits the ancestor chain into its (entirely virtual-depth) prefix and
the first normal-depth ancestor with its own chain. -/
theorem collect_virtual_spec (wf : TreeWF t rank) :
    ∀ (fuel i : Nat) (li : List Nat), Chain t i li → li.length ≤ fuel →
      (∀ x ∈ (collect_virtual_ancestors t fuel i).1, ¬ NormalAt t x) ∧
      (match (collect_virtual_ancestors t fuel i).2 with
       | some p => ∃ lp, Chain t p lp ∧ NormalAt t p ∧
           li = (collect_virtual_ancestors t fuel i).1 ++ p :: lp
       | none => li = (collect_virtual_ancestors t fuel i).1) := by
  intro fuel
  induction fuel with
  | zero =>
    intro i li hch hlen
    have hnil : li = [] := List.eq_nil_of_length_eq_zero (by omega)
    subst hnil
    exact ⟨fun x hx => absurd hx (List.not_mem_nil x), rfl⟩
  | succ f ih =>
    intro i li hch hlen
    cases hch with
    | root _ hp =>
      rw [collect_virtual_succ_root hp]
      exact ⟨fun x hx => absurd hx (List.not_mem_nil x), rfl⟩
    | step _ p lp hp hcp =>
      by_cases hn : NormalAt t p
      · obtain ⟨n, hdp⟩ := hn
        rw [collect_virtual_succ_normal hp hdp]
        dsimp only
        exact ⟨fun x hx => absurd hx (List.not_mem_nil x),
          ⟨lp, hcp, ⟨n, hdp⟩, rfl⟩⟩
      · rw [collect_virtual_succ_other hp hn]
        dsimp only
        obtain ⟨hv, hrest⟩ := ih p lp hcp (by simp at hlen; omega)
        refine ⟨?_, ?_⟩
        · intro x hx
          rcases List.mem_cons.1 hx with rfl | hx
          · exact hn
          · exact hv x hx
        · cases hnp : (collect_virtual_ancestors t f p).2 with
          | some pp =>
            rw [hnp] at hrest
            obtain ⟨lpp, hc, hnn, heq⟩ := hrest
            exact ⟨lpp, hc, hnn, by rw [heq]; rfl⟩
          | none =>
            rw [hnp] at hrest
            rw [hrest]

/-- The pairwise virtual scan is a `find?`. -/
theorem first_shared_virtual_eq (l1 l2 : List Nat) :
    first_shared_virtual l1 l2 = l1.find? fun x => decide (x ∈ l2) := by
  induction l1 with
  | nil => rfl
  | cons a rest ih =>
    rw [first_shared_virtual, List.find?_cons]
    by_cases h : a ∈ l2
    · rw [if_pos h]
      simp [h]
    · rw [if_neg h]
      simp [h, ih]

/-- The chain of a normal-depth object is entirely normal-depth. -/
theorem chain_normal_tail (wf : TreeWF t rank) {p : Nat} {lp : List Nat}
    (h : Chain t p lp) (hn : NormalAt t p) : ∀ z ∈ lp, NormalAt t z := by
  obtain ⟨n, hd⟩ := hn
  intro z hz
  obtain ⟨dz, hdz, _⟩ := chain_depth_lt wf h n hd z hz
  exact ⟨dz, hdz⟩

/-- `common_ancestor` on two distinct objects of a well-formed tree
computes the first element of the first object's ancestor chain that also
appears in the second object's ancestor chain. -/
theorem common_ancestor_eq_first_shared (wf : TreeWF t rank) (i j : Nat)
    (hij : i ≠ j) {li lj : List Nat} (hi : Chain t i li) (hj : Chain t j lj) :
    common_ancestor t i j = .ok (first_shared li lj) := by
  rw [common_ancestor, if_neg hij]
  dsimp only
  obtain ⟨hv1, hrest1⟩ :=
    collect_virtual_spec wf t.objs.length i li hi (chain_length_le wf hi)
  obtain ⟨hv2, hrest2⟩ :=
    collect_virtual_spec wf t.objs.length j lj hj (chain_length_le wf hj)
  rw [first_shared_virtual_eq]
  have hljparts : ∃ tail2, lj = (collect_virtual_ancestors t t.objs.length j).1
      ++ tail2 ∧ ∀ z ∈ tail2, NormalAt t z := by
    cases hnp2 : (collect_virtual_ancestors t t.objs.length j).2 with
    | some p2 =>
      rw [hnp2] at hrest2
      obtain ⟨lp2, hc2, hn2, heq2⟩ := hrest2
      refine ⟨p2 :: lp2, heq2, ?_⟩
      intro z hz
      rcases List.mem_cons.1 hz with rfl | hz
      · exact hn2
      · exact chain_normal_tail wf hc2 hn2 z hz
    | none =>
      rw [hnp2] at hrest2
      exact ⟨[], by rw [hrest2, List.append_nil], fun z hz => absurd hz
        (List.not_mem_nil z)⟩
  obtain ⟨tail2, hljeq, htail2n⟩ := hljparts
  cases hfsv : (collect_virtual_ancestors t t.objs.length i).1.find?
      (fun x => decide (x ∈ (collect_virtual_ancestors t t.objs.length j).1)) with
  | some x =>
    dsimp only
    have hxv1 : x ∈ (collect_virtual_ancestors t t.objs.length i).1 :=
      List.mem_of_find?_eq_some hfsv
    have hxv2 : x ∈ (collect_virtual_ancestors t t.objs.length j).1 := by
      simpa using List.find?_some hfsv
    obtain ⟨s, r, hdecomp, hs⟩ := find?_some_decomp hfsv
    have hliparts : ∃ tail1,
        li = (collect_virtual_ancestors t t.objs.length i).1 ++ tail1 := by
      cases hnp1 : (collect_virtual_ancestors t t.objs.length i).2 with
      | some p1 =>
        rw [hnp1] at hrest1
        obtain ⟨lp1, _, _, heq1⟩ := hrest1
        exact ⟨p1 :: lp1, heq1⟩
      | none =>
        rw [hnp1] at hrest1
        exact ⟨[], by rw [hrest1, List.append_nil]⟩
    obtain ⟨tail1, hlieq⟩ := hliparts
    have hlix : li = s ++ x :: (r ++ tail1) := by
      rw [hlieq, hdecomp]
      simp [List.append_assoc]
    have hcx : Chain t x (r ++ tail1) := by
      rw [hlix] at hi
      exact chain_suffix hi
    congr 1
    symm
    apply find?_shared_eq wf hi hcx
    · rw [hlieq]
      exact List.mem_append_left _ hxv1
    · rw [hljeq]
      exact List.mem_append_left _ hxv2
    · intro y hyli hylj
      have hyin : y ∈ s ++ x :: (r ++ tail1) := by rw [← hlix]; exact hyli
      rcases List.mem_append.1 hyin with hys | hyxr
      · exfalso
        have hyv2 : y ∉ (collect_virtual_ancestors t t.objs.length j).1 := by
          simpa using hs y hys
        have hyv1 : y ∈ (collect_virtual_ancestors t t.objs.length i).1 := by
          rw [hdecomp]
          exact List.mem_append_left _ hys
        have hynotn : ¬ NormalAt t y := hv1 y hyv1
        rw [hljeq] at hylj
        rcases List.mem_append.1 hylj with h2 | h2
        · exact hyv2 h2
        · exact hynotn (htail2n y h2)
      · exact List.mem_cons.1 hyxr
  | none =>
    dsimp only
    have hnone : ∀ y ∈ (collect_virtual_ancestors t t.objs.length i).1,
        y ∉ (collect_virtual_ancestors t t.objs.length j).1 := by
      rw [List.find?_eq_none] at hfsv
      intro y hy
      simpa using hfsv y hy
    cases hnp1 : (collect_virtual_ancestors t t.objs.length i).2 with
    | none =>
      rw [hnp1] at hrest1
      dsimp only
      congr 1
      symm
      rw [first_shared, List.find?_eq_none]
      intro y hyli hyb
      have hylj : y ∈ lj := by simpa using hyb
      have hyv1 : y ∈ (collect_virtual_ancestors t t.objs.length i).1 := by
        rw [← hrest1]; exact hyli
      rw [hljeq] at hylj
      rcases List.mem_append.1 hylj with h2 | h2
      · exact hnone y hyv1 h2
      · exact hv1 y hyv1 (htail2n y h2)
    | some p1 =>
      rw [hnp1] at hrest1
      obtain ⟨lp1, hcp1, hnp1n, heq1⟩ := hrest1
      cases hnp2 : (collect_virtual_ancestors t t.objs.length j).2 with
      | none =>
        rw [hnp2] at hrest2
        dsimp only
        congr 1
        symm
        rw [first_shared, List.find?_eq_none]
        intro y hyli hyb
        have hylj : y ∈ lj := by simpa using hyb
        have hyv2 : y ∈ (collect_virtual_ancestors t t.objs.length j).1 := by
          rw [← hrest2]; exact hylj
        rw [heq1] at hyli
        rcases List.mem_append.1 hyli with h1 | h1
        · exact hnone y h1 hyv2
        · apply hv2 y hyv2
          rcases List.mem_cons.1 h1 with rfl | h1
          · exact hnp1n
          · exact chain_normal_tail wf hcp1 hnp1n y h1
      | some p2 =>
        rw [hnp2] at hrest2
        obtain ⟨lp2, hcp2, hnp2n, heq2⟩ := hrest2
        dsimp only
        obtain ⟨d1, hd1⟩ := id hnp1n
        obtain ⟨d2, hd2⟩ := id hnp2n
        apply ca_loop_spec wf hi hj (2 * t.objs.length + 2) p1 lp1 d1 p2 lp2 d2
          hcp1 hcp2 hd1 hd2
        · have hb1 := wf.depth_bound p1 d1 hd1
          have hb2 := wf.depth_bound p2 d2 hd2
          omega
        · intro x hx
          rw [heq1]
          apply List.mem_append_right
          rcases hx with rfl | hx
          · exact List.mem_cons.2 (Or.inl rfl)
          · exact List.mem_cons.2 (Or.inr hx)
        · intro x hx
          rw [heq2]
          apply List.mem_append_right
          rcases hx with rfl | hx
          · exact List.mem_cons.2 (Or.inl rfl)
          · exact List.mem_cons.2 (Or.inr hx)
        · intro y hyli hylj
          rw [heq1] at hyli
          rcases List.mem_append.1 hyli with h1 | h1
          · exfalso
            rw [heq2] at hylj
            rcases List.mem_append.1 hylj with h2 | h2
            · exact hnone y h1 h2
            · apply hv1 y h1
              rcases List.mem_cons.1 h2 with rfl | h2
              · exact hnp2n
              · exact chain_normal_tail wf hcp2 hnp2n y h2
          · exact List.mem_cons.1 h1
        · intro y hyli hylj
          rw [heq2] at hylj
          rcases List.mem_append.1 hylj with h2 | h2
          · exfalso
            rw [heq1] at hyli
            rcases List.mem_append.1 hyli with h1 | h1
            · exact hnone y h1 h2
            · apply hv2 y h2
              rcases List.mem_cons.1 h1 with rfl | h1
              · exact hnp1n
              · exact chain_normal_tail wf hcp1 hnp1n y h1
          · exact List.mem_cons.1 h2

/-- The first shared ancestor is direction-independent. -/
theorem first_shared_comm (wf : TreeWF t rank) {a b : Nat} {la lb : List Nat}
    (ha : Chain t a la) (hb : Chain t b lb) :
    first_shared la lb = first_shared lb la := by
  cases hf : first_shared la lb with
  | none =>
    rw [first_shared, List.find?_eq_none] at hf
    symm
    rw [first_shared, List.find?_eq_none]
    intro y hyb hya
    exact hf y (by simpa using hya) (by simpa using hyb)
  | some x =>
    rw [first_shared] at hf
    have hxa : x ∈ la := List.mem_of_find?_eq_some hf
    have hxb : x ∈ lb := by simpa using List.find?_some hf
    obtain ⟨s, r, hla, hs⟩ := find?_some_decomp hf
    have hcx : Chain t x r := by rw [hla] at ha; exact chain_suffix ha
    symm
    apply find?_shared_eq wf hb hcx hxb hxa
    intro y hyb hya
    have hyin : y ∈ s ++ x :: r := by rw [← hla]; exact hya
    rcases List.mem_append.1 hyin with hys | hyxr
    · exact absurd hyb (by simpa using hs y hys)
    · exact List.mem_cons.1 hyxr

end ChainLemmas

/-!
#### Claim C6 — common ancestor
-/

/-- C6: on every well-formed tree, `common_ancestor(o, o)` is `o`'s parent,
and `common_ancestor` is symmetric in its two arguments. -/
theorem common_ancestor_self_and_symm (t : Tree) (rank : Nat → Nat)
    (wf : TreeWF t rank) (i j : Nat) :
    common_ancestor t i i = .ok (parentOf t i) ∧
    common_ancestor t i j = common_ancestor t j i := by
  refine ⟨by rw [common_ancestor, if_pos rfl], ?_⟩
  by_cases hij : i = j
  · subst hij; rfl
  · obtain ⟨li, hi⟩ := ChainLemmas.chain_exists wf i
    obtain ⟨lj, hj⟩ := ChainLemmas.chain_exists wf j
    rw [ChainLemmas.common_ancestor_eq_first_shared wf i j hij hi hj,
      ChainLemmas.common_ancestor_eq_first_shared wf j i (Ne.symm hij) hj hi,
      ChainLemmas.first_shared_comm wf hi hj]

/-- A small concrete tree for the C6 witness: a machine with two PU
children. -/
def treeW : Tree where
  objs :=
    [⟨none, .normal 0, some {0, 1}⟩,
     ⟨some 0, .normal 1, some {0}⟩,
     ⟨some 0, .normal 1, some {1}⟩]

/-- C6 witness: the claim at `treeW` with objects 1 and 2, the identity
rank certifying well-formedness. -/
theorem common_ancestor_self_and_symm_witness :
    common_ancestor treeW 1 1 = .ok (parentOf treeW 1) ∧
    common_ancestor treeW 1 2 = common_ancestor treeW 2 1 :=
  common_ancestor_self_and_symm treeW (fun i => i)
    { parent_valid := by
        intro i p hp
        rcases i with _ | _ | _ | m
        · rw [show parentOf treeW 0 = none from rfl] at hp; cases hp
        · rw [show parentOf treeW 1 = some 0 from rfl] at hp
          cases hp; decide
        · rw [show parentOf treeW 2 = some 0 from rfl] at hp
          cases hp; decide
        · rw [show parentOf treeW (m + 3) = none from rfl] at hp; cases hp
      rank_lt := by
        intro i p hp
        rcases i with _ | _ | _ | m
        · rw [show parentOf treeW 0 = none from rfl] at hp; cases hp
        · rw [show parentOf treeW 1 = some 0 from rfl] at hp
          cases hp; decide
        · rw [show parentOf treeW 2 = some 0 from rfl] at hp
          cases hp; decide
        · rw [show parentOf treeW (m + 3) = none from rfl] at hp; cases hp
      parent_normal := by
        intro i p n hp hd
        rcases i with _ | _ | _ | m
        · rw [show parentOf treeW 0 = none from rfl] at hp; cases hp
        · rw [show parentOf treeW 1 = some 0 from rfl] at hp
          cases hp
          rw [show depthOf treeW 1 = some (.normal 1) from rfl] at hd
          cases hd
          exact ⟨0, rfl, by omega⟩
        · rw [show parentOf treeW 2 = some 0 from rfl] at hp
          cases hp
          rw [show depthOf treeW 2 = some (.normal 1) from rfl] at hd
          cases hd
          exact ⟨0, rfl, by omega⟩
        · rw [show parentOf treeW (m + 3) = none from rfl] at hp; cases hp
      depth_bound := by
        intro i n hd
        rcases i with _ | _ | _ | m
        · rw [show depthOf treeW 0 = some (.normal 0) from rfl] at hd
          cases hd; decide
        · rw [show depthOf treeW 1 = some (.normal 1) from rfl] at hd
          cases hd; decide
        · rw [show depthOf treeW 2 = some (.normal 1) from rfl] at hd
          cases hd; decide
        · rw [show depthOf treeW (m + 3) = none from rfl] at hd; cases hd }
    1 2

end Hwloc
